import Mathlib

/-!
Verification of the range_ranger interval-algebra library.

The Rust sources (bounds.rs, relation.rs, continuous.rs, simplify.rs) are
shallowly embedded below over an arbitrary totally ordered element type:
for such a type Rust's PartialOrd::partial_cmp always succeeds, so the
Option wrapper around element comparisons is dropped and comparisons are
modelled with Ord.compare of a LinearOrder.  Panic paths of the source are
modelled by explicit fallback values and proved unreachable where a claim
depends on them.
-/

set_option linter.unusedSectionVars false
set_option synthInstance.maxSize 512

namespace RangeRanger

/-- Side of a compared bound: whether it is the start or the end of its range.
Mirrors BoundSide in bounds.rs. -/
inductive BoundSide : Type where
  | Start
  | End
deriving DecidableEq, Repr

/-- Result of a comparison between two bounds. Mirrors BoundOrdering in bounds.rs. -/
inductive BoundOrdering : Type where
  | Meets
  | Less
  | Equal
  | Greater
  | IsMet
deriving DecidableEq, Repr, Fintype

/-- Endpoint of a range. Mirrors std::ops::Bound. -/
inductive Bound (α : Type) : Type where
  | Included (v : α)
  | Excluded (v : α)
  | Unbounded
deriving DecidableEq, Repr

/-- Conversion from Ordering, mirroring the From Ordering impl in bounds.rs. -/
def BoundOrdering.ofOrdering : Ordering → BoundOrdering
  | .lt => .Less
  | .eq => .Equal
  | .gt => .Greater

/-- Embedding of partial_cmp_bounds from bounds.rs (arguments this, this_side,
other, other_side are named b1 s1 b2 s2).  For a linear order the element
comparison always succeeds, so the result is a plain BoundOrdering. -/
def partialCmpBounds {α : Type} [LinearOrder α] (b1 : Bound α) (s1 : BoundSide)
    (b2 : Bound α) (s2 : BoundSide) : BoundOrdering :=
  match b1 with
  | .Included v1 =>
    match b2 with
    | .Included v2 => .ofOrdering (compare v1 v2)
    | .Excluded v2 =>
      match compare v1 v2 with
      | .eq =>
        match s1, s2 with
        | .Start, .Start => .Less
        | .End, .End => .Greater
        | .Start, .End => .IsMet
        | .End, .Start => .Meets
      | o => .ofOrdering o
    | .Unbounded =>
      match s2 with
      | .Start => .Greater
      | .End => .Less
  | .Excluded v1 =>
    match b2 with
    | .Included v2 =>
      match compare v1 v2 with
      | .eq =>
        match s1, s2 with
        | .Start, .Start => .Greater
        | .End, .End => .Less
        | .Start, .End => .IsMet
        | .End, .Start => .Meets
      | o => .ofOrdering o
    | .Excluded v2 =>
      match compare v1 v2 with
      | .eq =>
        match s1, s2 with
        | .Start, .Start => .Equal
        | .End, .End => .Equal
        | .Start, .End => .Greater
        | .End, .Start => .Less
      | o => .ofOrdering o
    | .Unbounded =>
      match s2 with
      | .Start => .Greater
      | .End => .Less
  | .Unbounded =>
    match b2 with
    | .Included _ | .Excluded _ =>
      match s1 with
      | .Start => .Less
      | .End => .Greater
    | .Unbounded =>
      match s1, s2 with
      | .Start, .Start => .Equal
      | .End, .End => .Equal
      | .Start, .End => .Less
      | .End, .Start => .Greater

/-- Embedding of expect_bound from bounds.rs: returns the finite value of the
bound.  The Rust function panics when the bound is absent or Unbounded; the
panic is modelled by none. -/
def expect_bound {α : Type} : Option (Bound α) → Option α
  | some (.Included v) => some v
  | some (.Excluded v) => some v
  | _ => none

/-- Embedding of reverse_bound from bounds.rs. -/
def reverse_bound {α : Type} : Bound α → Bound α
  | .Included v => .Excluded v
  | .Excluded v => .Included v
  | .Unbounded => .Unbounded

/-- Allen relation between two ranges. Mirrors RangesRelation in relation.rs. -/
inductive RangesRelation : Type where
  | StrictlyBefore
  | StrictlyAfter
  | Meets
  | IsMet
  | Overlaps
  | IsOverlapped
  | Starts
  | IsStarted
  | StrictlyContains
  | IsStrictlyContained
  | Finishes
  | IsFinished
  | Equal
deriving DecidableEq, Repr, Fintype

namespace RangesRelation

/-- Embedding of RangesRelation::intersects from relation.rs. -/
def intersects : RangesRelation → Bool
  | .StrictlyBefore | .StrictlyAfter => false
  | _ => true

/-- Embedding of RangesRelation::disjoint from relation.rs. -/
def disjoint (r : RangesRelation) : Bool := !r.intersects

/-- Embedding of RangesRelation::contains from relation.rs. -/
def contains : RangesRelation → Bool
  | .Equal | .StrictlyContains | .IsFinished | .IsStarted => true
  | _ => false

/-- Embedding of RangesRelation::start_ordering from relation.rs. -/
def start_ordering : RangesRelation → Ordering
  | .StrictlyBefore => .lt
  | .StrictlyAfter => .gt
  | .Meets => .lt
  | .IsMet => .gt
  | .Overlaps => .lt
  | .IsOverlapped => .gt
  | .Starts => .eq
  | .IsStarted => .eq
  | .StrictlyContains => .lt
  | .IsStrictlyContained => .gt
  | .Finishes => .gt
  | .IsFinished => .lt
  | .Equal => .eq

/-- Embedding of RangesRelation::end_ordering from relation.rs. -/
def end_ordering : RangesRelation → Ordering
  | .StrictlyBefore => .lt
  | .StrictlyAfter => .gt
  | .Meets => .lt
  | .IsMet => .gt
  | .Overlaps => .lt
  | .IsOverlapped => .gt
  | .Starts => .lt
  | .IsStarted => .gt
  | .StrictlyContains => .gt
  | .IsStrictlyContained => .lt
  | .Finishes => .eq
  | .IsFinished => .eq
  | .Equal => .eq

/-- Algebraic inverse of a relation, as described by the specification (claim
C4): swapping the two compared ranges swaps each relation with its inverse. -/
def inverse : RangesRelation → RangesRelation
  | .StrictlyBefore => .StrictlyAfter
  | .StrictlyAfter => .StrictlyBefore
  | .Meets => .IsMet
  | .IsMet => .Meets
  | .Overlaps => .IsOverlapped
  | .IsOverlapped => .Overlaps
  | .Starts => .IsStarted
  | .IsStarted => .Starts
  | .StrictlyContains => .IsStrictlyContained
  | .IsStrictlyContained => .StrictlyContains
  | .Finishes => .IsFinished
  | .IsFinished => .Finishes
  | .Equal => .Equal

end RangesRelation

/-- Continuous range of values. Mirrors ContinuousRange in continuous.rs
(the two value fields of the bounded variants are start and end). -/
inductive ContinuousRange (α : Type) : Type where
  | Empty
  | Single (v : α)
  | Inclusive (s e : α)
  | Exclusive (s e : α)
  | StartExclusive (s e : α)
  | EndExclusive (s e : α)
  | From (s : α)
  | FromExclusive (s : α)
  | To (e : α)
  | ToExclusive (e : α)
  | Full
deriving DecidableEq, Repr

/-- Classification step of ContinuousRange::compare: the chain of tests on the
four bound comparisons cmp_end_start, cmp_start_end, cmp_start_start,
cmp_end_end from continuous.rs.  The final fallback models the
PartialOrd-contract panic, which is unreachable for a total order. -/
def classify (es se ss ee : BoundOrdering) : Option RangesRelation :=
  if es = .Less then some .StrictlyBefore
  else if es = .Meets then some .Meets
  else if se = .Greater then some .StrictlyAfter
  else if se = .IsMet then some .IsMet
  else if ss = .Less ∧ (es = .Greater ∨ es = .Equal) ∧ ee = .Less then some .Overlaps
  else if ss = .Greater ∧ (se = .Less ∨ se = .Equal) ∧ ee = .Greater then some .IsOverlapped
  else if ss = .Equal ∧ ee = .Less then some .Starts
  else if ss = .Equal ∧ ee = .Greater then some .IsStarted
  else if ss = .Greater ∧ ee = .Equal then some .Finishes
  else if ss = .Less ∧ ee = .Equal then some .IsFinished
  else if ss = .Less ∧ ee = .Greater then some .StrictlyContains
  else if ss = .Greater ∧ ee = .Less then some .IsStrictlyContained
  else if ss = .Equal ∧ ee = .Equal then some .Equal
  else none

namespace ContinuousRange

variable {α : Type}

/-- Embedding of ContinuousRange::is_empty. -/
def is_empty [LinearOrder α] : ContinuousRange α → Bool
  | .Empty => true
  | .Inclusive s e => decide (s > e)
  | .Exclusive s e => decide (s ≥ e)
  | .StartExclusive s e => decide (s ≥ e)
  | .EndExclusive s e => decide (s ≥ e)
  | .Single _ | .From _ | .FromExclusive _ | .To _ | .ToExclusive _ | .Full => false

/-- Embedding of ContinuousRange::is_full. -/
def is_full : ContinuousRange α → Bool
  | .Full => true
  | _ => false

/-- Embedding of ContinuousRange::simplify. -/
def simplify [LinearOrder α] : ContinuousRange α → ContinuousRange α
  | .Inclusive s e =>
    if s = e then .Single s else if s > e then .Empty else .Inclusive s e
  | .Exclusive s e => if s ≥ e then .Empty else .Exclusive s e
  | .StartExclusive s e => if s ≥ e then .Empty else .StartExclusive s e
  | .EndExclusive s e => if s ≥ e then .Empty else .EndExclusive s e
  | r => r

/-- Embedding of the ContinuousRange::single constructor. -/
def single (v : α) : ContinuousRange α := .Single v

/-- Embedding of the normalizing ContinuousRange::inclusive constructor. -/
def inclusive [LinearOrder α] (s e : α) : ContinuousRange α :=
  if s = e then .Single s else if s > e then .Empty else .Inclusive s e

/-- Embedding of the normalizing ContinuousRange::exclusive constructor. -/
def exclusive [LinearOrder α] (s e : α) : ContinuousRange α :=
  if s ≥ e then .Empty else .Exclusive s e

/-- Embedding of the normalizing ContinuousRange::start_exclusive constructor. -/
def start_exclusive [LinearOrder α] (s e : α) : ContinuousRange α :=
  if s ≥ e then .Empty else .StartExclusive s e

/-- Embedding of the normalizing ContinuousRange::end_exclusive constructor. -/
def end_exclusive [LinearOrder α] (s e : α) : ContinuousRange α :=
  if s ≥ e then .Empty else .EndExclusive s e

/-- Embedding of ContinuousRange::from_bounds. -/
def from_bounds [LinearOrder α] : Bound α × Bound α → ContinuousRange α
  | (.Unbounded, .Unbounded) => .Full
  | (.Included s, .Included e) => inclusive s e
  | (.Included s, .Excluded e) => end_exclusive s e
  | (.Included s, .Unbounded) => .From s
  | (.Excluded s, .Included e) => start_exclusive s e
  | (.Excluded s, .Excluded e) => exclusive s e
  | (.Excluded s, .Unbounded) => .FromExclusive s
  | (.Unbounded, .Included e) => .To e
  | (.Unbounded, .Excluded e) => .ToExclusive e

/-- Embedding of ContinuousRange::range_bounds. -/
def range_bounds : ContinuousRange α → Option (Bound α × Bound α)
  | .Empty => none
  | .Single v => some (.Included v, .Included v)
  | .Inclusive s e => some (.Included s, .Included e)
  | .Exclusive s e => some (.Excluded s, .Excluded e)
  | .StartExclusive s e => some (.Excluded s, .Included e)
  | .EndExclusive s e => some (.Included s, .Excluded e)
  | .From s => some (.Included s, .Unbounded)
  | .FromExclusive s => some (.Excluded s, .Unbounded)
  | .To e => some (.Unbounded, .Included e)
  | .ToExclusive e => some (.Unbounded, .Excluded e)
  | .Full => some (.Unbounded, .Unbounded)

/-- Embedding of ContinuousRange::start_bound. -/
def start_bound : ContinuousRange α → Option (Bound α)
  | .Empty => none
  | .Single v => some (.Included v)
  | .Inclusive s _ => some (.Included s)
  | .Exclusive s _ => some (.Excluded s)
  | .StartExclusive s _ => some (.Excluded s)
  | .EndExclusive s _ => some (.Included s)
  | .From s => some (.Included s)
  | .FromExclusive s => some (.Excluded s)
  | .To _ | .ToExclusive _ | .Full => some .Unbounded

/-- Embedding of ContinuousRange::end_bound. -/
def end_bound : ContinuousRange α → Option (Bound α)
  | .Empty => none
  | .Single v => some (.Included v)
  | .Inclusive _ e => some (.Included e)
  | .Exclusive _ e => some (.Excluded e)
  | .StartExclusive _ e => some (.Included e)
  | .EndExclusive _ e => some (.Excluded e)
  | .To e => some (.Included e)
  | .ToExclusive e => some (.Excluded e)
  | .From _ | .FromExclusive _ | .Full => some .Unbounded

/-- Embedding of ContinuousRange::compare.  The final arm of the inner match is
unreachable: a range that is not empty always has bounds (the Rust code uses
expect there). -/
def compare [LinearOrder α] (a b : ContinuousRange α) : Option RangesRelation :=
  if a.is_empty then
    if b.is_empty then some .Equal else none
  else if b.is_empty then none
  else
    match a.range_bounds, b.range_bounds with
    | some (self_start, self_end), some (other_start, other_end) =>
      classify
        (partialCmpBounds self_end .End other_start .Start)
        (partialCmpBounds self_start .Start other_end .End)
        (partialCmpBounds self_start .Start other_start .Start)
        (partialCmpBounds self_end .End other_end .End)
    | _, _ => none

/-- Embedding of ContinuousRange::contains_range. -/
def contains_range [LinearOrder α] (a b : ContinuousRange α) : Bool :=
  match a.compare b with
  | some r => r.contains
  | none => false

/-- Embedding of ContinuousRange::disjoint_from_range. -/
def disjoint_from_range [LinearOrder α] (a b : ContinuousRange α) : Bool :=
  match a.compare b with
  | some r => r.disjoint
  | none => true

/-- Embedding of ContinuousRange::union_knowing_cmp.  In the four merge arms
the Rust code extracts the bounds with expect; those panics are unreachable
when cmp really is the comparison of the two ranges, and are modelled by
none. -/
def union_knowing_cmp [LinearOrder α] (a b : ContinuousRange α)
    (cmp : RangesRelation) : Option (ContinuousRange α) :=
  match cmp with
  | .StrictlyBefore => none
  | .StrictlyAfter => none
  | .Meets =>
    match a.start_bound, b.end_bound with
    | some s, some e => some (from_bounds (s, e))
    | _, _ => none
  | .IsMet =>
    match a.end_bound, b.start_bound with
    | some e, some s => some (from_bounds (s, e))
    | _, _ => none
  | .Overlaps =>
    match a.start_bound, b.end_bound with
    | some s, some e => some (from_bounds (s, e))
    | _, _ => none
  | .IsOverlapped =>
    match a.end_bound, b.start_bound with
    | some e, some s => some (from_bounds (s, e))
    | _, _ => none
  | .Starts => some b
  | .IsStarted => some a
  | .StrictlyContains => some a
  | .IsStrictlyContained => some b
  | .Finishes => some b
  | .IsFinished => some a
  | .Equal => some a

/-- Embedding of ContinuousRange::union. -/
def union [LinearOrder α] (a b : ContinuousRange α) : Option (ContinuousRange α) :=
  if a.is_full || b.is_full then some .Full
  else if a.is_empty then some b
  else if b.is_empty then some a
  else
    match a.compare b with
    | some cmp => a.union_knowing_cmp b cmp
    | none => none

/-- Embedding of ContinuousRange::intersection.  The expect_bound and expect
panics in the Meets, IsMet, Overlaps and IsOverlapped arms are unreachable
(claim C9) and are modelled by an Empty fallback. -/
def intersection [LinearOrder α] (a b : ContinuousRange α) : ContinuousRange α :=
  if a.is_empty || b.is_empty then .Empty
  else if a.is_full then b
  else if b.is_full then a
  else
    match a.compare b with
    | some cmp =>
      match cmp with
      | .StrictlyBefore => .Empty
      | .StrictlyAfter => .Empty
      | .Meets =>
        match expect_bound a.end_bound with
        | some v => single v
        | none => .Empty
      | .IsMet =>
        match expect_bound a.start_bound with
        | some v => single v
        | none => .Empty
      | .Overlaps =>
        match a.range_bounds, b.range_bounds with
        | some (_, e), some (s, _) => from_bounds (s, e)
        | _, _ => .Empty
      | .IsOverlapped =>
        match a.range_bounds, b.range_bounds with
        | some (s, _), some (_, e) => from_bounds (s, e)
        | _, _ => .Empty
      | .Starts => a
      | .IsStarted => b
      | .StrictlyContains => b
      | .IsStrictlyContained => a
      | .Finishes => a
      | .IsFinished => b
      | .Equal => a
    | none => .Empty

/-- Embedding of ContinuousRange::difference.  The expect panics on missing
bounds are unreachable when compare produced the matched relation and are
modelled by none. -/
def difference [LinearOrder α] (a b : ContinuousRange α) : Option (ContinuousRange α) :=
  match a, b with
  | .Empty, r => some r
  | _, .Empty => some .Empty
  | _, _ =>
    match a.compare b with
    | some cmp =>
      match cmp with
      | .StrictlyBefore => some a
      | .StrictlyAfter => some a
      | .Equal => some .Empty
      | .IsStrictlyContained => some .Empty
      | .StrictlyContains => none
      | .Meets =>
        match a.range_bounds with
        | some (s, e) => some (from_bounds (s, reverse_bound e))
        | none => none
      | .IsMet =>
        match a.range_bounds with
        | some (s, e) => some (from_bounds (reverse_bound s, e))
        | none => none
      | .Overlaps =>
        match a.start_bound, b.start_bound with
        | some s, some e => some (from_bounds (s, reverse_bound e))
        | _, _ => none
      | .IsOverlapped =>
        match a.end_bound, b.end_bound with
        | some e, some s => some (from_bounds (reverse_bound s, e))
        | _, _ => none
      | .Starts => some .Empty
      | .IsStarted =>
        match a.end_bound, b.end_bound with
        | some e, some s => some (from_bounds (reverse_bound s, e))
        | _, _ => none
      | .Finishes => some .Empty
      | .IsFinished =>
        match a.start_bound, b.start_bound with
        | some s, some e => some (from_bounds (s, reverse_bound e))
        | _, _ => none
    | none => none

/-- Embedding of ContinuousRange::intersects. -/
def intersects [LinearOrder α] (a b : ContinuousRange α) : Bool :=
  if a.is_empty && b.is_empty then false
  else
    match a.compare b with
    | some relation => relation.intersects
    | none => false

end ContinuousRange

/-- Embedding of Vec::swap_remove: overwrite position i with the last element
and drop the last element. -/
def swap_remove {β : Type} (l : List β) (i : Nat) : List β :=
  match l.getLast? with
  | none => l
  | some last => (l.set i last).dropLast

/-- Phases 1 and 2 of simplify_ranges restricted to the removal of empties:
the indices of the Empty elements are recorded in ascending order and removed
with swap_remove from the highest recorded index to the lowest, exactly as in
simplify.rs. -/
def removeEmpties [LinearOrder α] (l : List (ContinuousRange α)) :
    List (ContinuousRange α) :=
  let idxs := (List.range l.length).filter
    fun i => decide (l.getD i ContinuousRange.Empty = ContinuousRange.Empty)
  idxs.reverse.foldl swap_remove l

/-- Comparator closure passed to sort_by in simplify_ranges.  The Rust closure
calls expect on the compare result; that panic (one operand empty) is
unreachable after the empties have been removed and is modelled by a fixed
total tie-break that orders empty ranges first. -/
def sortOrd [LinearOrder α] (a b : ContinuousRange α) : Ordering :=
  match a.compare b with
  | some rel => rel.start_ordering
  | none => if a.is_empty then Ordering.lt else Ordering.gt

/-- Boolean order corresponding to sortOrd, as used by a stable sort. -/
def sortLE [LinearOrder α] (a b : ContinuousRange α) : Bool :=
  decide (sortOrd a b ≠ Ordering.gt)

/-- Functional rendering of the in-place merge loop of simplify_ranges: w is
the element at the write index, the list holds the elements still to be read;
the output collects the slots 0..write of the Rust vector.  The StrictlyAfter
and failed-compare panics are unreachable after sorting and are modelled by
stopping the merge. -/
def mergeRanges [LinearOrder α] :
    ContinuousRange α → List (ContinuousRange α) → List (ContinuousRange α)
  | w, [] => [w]
  | w, r :: rest =>
    match w.compare r with
    | some .StrictlyBefore => w :: mergeRanges r rest
    | some .StrictlyAfter => w :: r :: rest
    | some .Meets =>
      match w.union_knowing_cmp r .Meets with
      | some u => mergeRanges u rest
      | none => w :: r :: rest
    | some .IsMet =>
      match w.union_knowing_cmp r .IsMet with
      | some u => mergeRanges u rest
      | none => w :: r :: rest
    | some .Overlaps =>
      match w.union_knowing_cmp r .Overlaps with
      | some u => mergeRanges u rest
      | none => w :: r :: rest
    | some .IsOverlapped =>
      match w.union_knowing_cmp r .IsOverlapped with
      | some u => mergeRanges u rest
      | none => w :: r :: rest
    | some .Starts => mergeRanges r rest
    | some .IsStrictlyContained => mergeRanges r rest
    | some .Finishes => mergeRanges r rest
    | some .IsStarted => mergeRanges w rest
    | some .StrictlyContains => mergeRanges w rest
    | some .IsFinished => mergeRanges w rest
    | some .Equal => mergeRanges w rest
    | none => w :: r :: rest

/-- Embedding of simplify_ranges from simplify.rs: per-element simplify with a
short-circuit to the single Full range, removal of the empties by descending
swap_remove, stable sort by the start ordering of compare, then the merge
pass. -/
def simplify_ranges [LinearOrder α] (ranges : List (ContinuousRange α)) :
    List (ContinuousRange α) :=
  if ranges.isEmpty then ranges
  else if (ranges.map ContinuousRange.simplify).any ContinuousRange.is_full then
    [ContinuousRange.Full]
  else
    match (removeEmpties (ranges.map ContinuousRange.simplify)).mergeSort sortLE with
    | [] => []
    | w :: rs => mergeRanges w rs

/-! Virtual point abstraction: a bound tagged with its side is mapped to a
point of the linear order WithBot (WithTop (α lexicographically paired with an
infinitesimal offset in ℤ)); an included value sits at offset 0, an excluded
start just above it, an excluded end just below it, and unbounded sides at the
two extremes.  All properties of partialCmpBounds reduce to order facts about
these points. -/

/-- Virtual point domain for bounds over α. -/
abbrev VP (α : Type) : Type := WithBot (WithTop (α ×ₗ ℤ))

/-- Finite virtual point at value v with infinitesimal offset e. -/
def vp {α : Type} (v : α) (e : ℤ) : VP α :=
  (((toLex (v, e) : α ×ₗ ℤ) : WithTop (α ×ₗ ℤ)) : VP α)

/-- Virtual point at plus infinity. -/
def vtop {α : Type} : VP α := ((⊤ : WithTop (α ×ₗ ℤ)) : VP α)

/-- Virtual point of a bound on a given side. -/
def vpt {α : Type} : Bound α → BoundSide → VP α
  | .Included v, _ => vp v 0
  | .Excluded v, .Start => vp v 1
  | .Excluded v, .End => vp v (-1)
  | .Unbounded, .Start => ⊥
  | .Unbounded, .End => vtop

section VPOrder

variable {α : Type} [LinearOrder α] {v v1 v2 : α} {e e1 e2 : ℤ}

@[simp] theorem vp_lt_vp : vp v1 e1 < vp v2 e2 ↔ v1 < v2 ∨ (v1 = v2 ∧ e1 < e2) := by
  unfold vp
  rw [WithBot.coe_lt_coe, WithTop.coe_lt_coe, Prod.Lex.lt_iff]

@[simp] theorem vp_le_vp : vp v1 e1 ≤ vp v2 e2 ↔ v1 < v2 ∨ (v1 = v2 ∧ e1 ≤ e2) := by
  unfold vp
  rw [WithBot.coe_le_coe, WithTop.coe_le_coe, Prod.Lex.le_iff]

@[simp] theorem vp_inj : vp v1 e1 = vp v2 e2 ↔ v1 = v2 ∧ e1 = e2 := by
  unfold vp
  rw [WithBot.coe_inj, WithTop.coe_inj, toLex_inj, Prod.mk.injEq]

@[simp] theorem bot_lt_vp : (⊥ : VP α) < vp v e := WithBot.bot_lt_coe _

@[simp] theorem vp_lt_vtop : vp v e < (vtop : VP α) := by
  unfold vp vtop
  rw [WithBot.coe_lt_coe]
  exact WithTop.coe_lt_top _

@[simp] theorem bot_lt_vtop : (⊥ : VP α) < vtop := WithBot.bot_lt_coe _

@[simp] theorem not_vp_lt_bot : ¬ vp v e < (⊥ : VP α) := WithBot.not_lt_bot _

@[simp] theorem not_vtop_lt_bot : ¬ (vtop : VP α) < ⊥ := WithBot.not_lt_bot _

@[simp] theorem not_vtop_lt_vp : ¬ (vtop : VP α) < vp v e := by
  unfold vp vtop
  rw [WithBot.coe_lt_coe]
  exact WithTop.not_top_lt _

@[simp] theorem not_vtop_lt_vtop : ¬ (vtop : VP α) < vtop := lt_irrefl _

@[simp] theorem not_bot_lt_bot : ¬ (⊥ : VP α) < ⊥ := lt_irrefl _

@[simp] theorem not_vp_lt_vp_self : ¬ vp v e < vp v e := lt_irrefl _

@[simp] theorem vp_ne_bot : vp v e ≠ (⊥ : VP α) := WithBot.coe_ne_bot

@[simp] theorem bot_ne_vp : (⊥ : VP α) ≠ vp v e := fun h => vp_ne_bot h.symm

@[simp] theorem vp_ne_vtop : vp v e ≠ (vtop : VP α) := ne_of_lt vp_lt_vtop

@[simp] theorem vtop_ne_vp : (vtop : VP α) ≠ vp v e := fun h => vp_ne_vtop h.symm

@[simp] theorem bot_ne_vtop : (⊥ : VP α) ≠ (vtop : VP α) := ne_of_lt bot_lt_vtop

@[simp] theorem vtop_ne_bot : (vtop : VP α) ≠ (⊥ : VP α) := fun h => bot_ne_vtop h.symm

end VPOrder

/-- Adjacent virtual points: q is the immediate successor of p, at the same
element value. -/
def vadj {α : Type} (p q : VP α) : Prop := ∃ v e, p = vp v e ∧ q = vp v (e + 1)

section VAdj

variable {α : Type} [LinearOrder α] {v v1 v2 : α} {e e1 e2 : ℤ} {p q : VP α}

@[simp] theorem vadj_vp_vp : vadj (vp v1 e1) (vp v2 e2) ↔ v1 = v2 ∧ e2 = e1 + 1 := by
  constructor
  · rintro ⟨v, e, h1, h2⟩
    rw [vp_inj] at h1 h2
    refine ⟨h1.1.trans h2.1.symm, ?_⟩
    omega
  · rintro ⟨rfl, rfl⟩
    exact ⟨v1, e1, rfl, rfl⟩

@[simp] theorem not_vadj_bot_left : ¬ vadj (⊥ : VP α) q := by
  rintro ⟨v, e, h1, _⟩
  exact bot_ne_vp h1

@[simp] theorem not_vadj_vtop_left : ¬ vadj (vtop : VP α) q := by
  rintro ⟨v, e, h1, _⟩
  exact vtop_ne_vp h1

@[simp] theorem not_vadj_bot_right : ¬ vadj p (⊥ : VP α) := by
  rintro ⟨v, e, _, h2⟩
  exact bot_ne_vp h2

@[simp] theorem not_vadj_vtop_right : ¬ vadj p (vtop : VP α) := by
  rintro ⟨v, e, _, h2⟩
  exact vtop_ne_vp h2

theorem vadj_lt (h : vadj p q) : p < q := by
  obtain ⟨v, e, rfl, rfl⟩ := h
  rw [vp_lt_vp]
  exact Or.inr ⟨rfl, by omega⟩

/-- There is no virtual point of finite shape strictly between two adjacent
virtual points. -/
theorem vadj_no_vp_mid {u : α} {f : ℤ} (h : vadj p q)
    (h1 : p < vp u f) (h2 : vp u f < q) : False := by
  obtain ⟨v, e, rfl, rfl⟩ := h
  rw [vp_lt_vp] at h1 h2
  rcases h1 with h1 | ⟨rfl, h1⟩
  · rcases h2 with h2 | ⟨rfl, _⟩
    · exact absurd h1 (lt_asymm h2)
    · exact lt_irrefl _ h1
  · rcases h2 with h2 | ⟨_, h2⟩
    · exact lt_irrefl _ h2
    · omega

/-- Every virtual point of a bound is bottom, top or a finite point. -/
theorem vpt_shape (b : Bound α) (s : BoundSide) :
    vpt b s = ⊥ ∨ vpt b s = vtop ∨ ∃ v e, vpt b s = vp v e := by
  cases b <;> cases s <;> simp [vpt]

end VAdj

section CmpBoundsChar

variable {α : Type} [LinearOrder α] {b1 b2 : Bound α} {s1 s2 : BoundSide}

/-- Characterization of partialCmpBounds through virtual points: equality of
the result with Equal, membership in the lower pair Less or Meets, and the two
adjacency outcomes Meets and IsMet are each equivalent to plain order facts
about the virtual points of the two bounds. -/
theorem cmpBounds_char (b1 b2 : Bound α) (s1 s2 : BoundSide) :
    (partialCmpBounds b1 s1 b2 s2 = .Equal ↔ vpt b1 s1 = vpt b2 s2) ∧
    ((partialCmpBounds b1 s1 b2 s2 = .Less ∨ partialCmpBounds b1 s1 b2 s2 = .Meets) ↔
      vpt b1 s1 < vpt b2 s2) ∧
    (partialCmpBounds b1 s1 b2 s2 = .Meets ↔
      s1 = .End ∧ s2 = .Start ∧ vadj (vpt b1 s1) (vpt b2 s2)) ∧
    (partialCmpBounds b1 s1 b2 s2 = .IsMet ↔
      s1 = .Start ∧ s2 = .End ∧ vadj (vpt b2 s2) (vpt b1 s1)) := by
  have val : ∀ v1 v2 : α, ∀ s1 s2 : BoundSide,
      ∀ b1 b2 : Bound α, b1 = .Included v1 ∨ b1 = .Excluded v1 →
      b2 = .Included v2 ∨ b2 = .Excluded v2 →
      (partialCmpBounds b1 s1 b2 s2 = .Equal ↔ vpt b1 s1 = vpt b2 s2) ∧
      ((partialCmpBounds b1 s1 b2 s2 = .Less ∨ partialCmpBounds b1 s1 b2 s2 = .Meets) ↔
        vpt b1 s1 < vpt b2 s2) ∧
      (partialCmpBounds b1 s1 b2 s2 = .Meets ↔
        s1 = .End ∧ s2 = .Start ∧ vadj (vpt b1 s1) (vpt b2 s2)) ∧
      (partialCmpBounds b1 s1 b2 s2 = .IsMet ↔
        s1 = .Start ∧ s2 = .End ∧ vadj (vpt b2 s2) (vpt b1 s1)) := by
    intro v1 v2 s1 s2 b1 b2 hb1 hb2
    rcases hb1 with rfl | rfl <;> rcases hb2 with rfl | rfl <;> cases s1 <;> cases s2 <;>
      rcases lt_trichotomy v1 v2 with h | rfl | h <;>
        first
          | (simp [partialCmpBounds, vpt, BoundOrdering.ofOrdering,
              compare_lt_iff_lt.2 h, h, h.ne, h.ne', lt_asymm h]; done)
          | (simp [partialCmpBounds, vpt, BoundOrdering.ofOrdering,
              compare_gt_iff_gt.2 h, h, h.ne, h.ne', lt_asymm h]; done)
          | (simp [partialCmpBounds, vpt, BoundOrdering.ofOrdering,
              compare_eq_iff_eq.2 (rfl : v1 = v1)]; done)
  rcases b1 with v1 | v1 | _ <;> rcases b2 with v2 | v2 | _
  · exact val v1 v2 s1 s2 _ _ (Or.inl rfl) (Or.inl rfl)
  · exact val v1 v2 s1 s2 _ _ (Or.inl rfl) (Or.inr rfl)
  · cases s1 <;> cases s2 <;>
      simp [partialCmpBounds, vpt, BoundOrdering.ofOrdering]
  · exact val v1 v2 s1 s2 _ _ (Or.inr rfl) (Or.inl rfl)
  · exact val v1 v2 s1 s2 _ _ (Or.inr rfl) (Or.inr rfl)
  · cases s1 <;> cases s2 <;>
      simp [partialCmpBounds, vpt, BoundOrdering.ofOrdering]
  · cases s1 <;> cases s2 <;>
      simp [partialCmpBounds, vpt, BoundOrdering.ofOrdering]
  · cases s1 <;> cases s2 <;>
      simp [partialCmpBounds, vpt, BoundOrdering.ofOrdering]
  · cases s1 <;> cases s2 <;>
      simp [partialCmpBounds, vpt, BoundOrdering.ofOrdering]

theorem cmpBounds_eq_iff :
    partialCmpBounds b1 s1 b2 s2 = .Equal ↔ vpt b1 s1 = vpt b2 s2 :=
  (cmpBounds_char b1 b2 s1 s2).1

theorem cmpBounds_lt_iff :
    (partialCmpBounds b1 s1 b2 s2 = .Less ∨ partialCmpBounds b1 s1 b2 s2 = .Meets) ↔
      vpt b1 s1 < vpt b2 s2 :=
  (cmpBounds_char b1 b2 s1 s2).2.1

theorem cmpBounds_meets_iff :
    partialCmpBounds b1 s1 b2 s2 = .Meets ↔
      s1 = .End ∧ s2 = .Start ∧ vadj (vpt b1 s1) (vpt b2 s2) :=
  (cmpBounds_char b1 b2 s1 s2).2.2.1

theorem cmpBounds_ismet_iff :
    partialCmpBounds b1 s1 b2 s2 = .IsMet ↔
      s1 = .Start ∧ s2 = .End ∧ vadj (vpt b2 s2) (vpt b1 s1) :=
  (cmpBounds_char b1 b2 s1 s2).2.2.2

theorem cmpBounds_gt_iff :
    (partialCmpBounds b1 s1 b2 s2 = .Greater ∨ partialCmpBounds b1 s1 b2 s2 = .IsMet) ↔
      vpt b2 s2 < vpt b1 s1 := by
  rcases lt_trichotomy (vpt b1 s1) (vpt b2 s2) with hh | hh | hh
  · constructor
    · rintro (h | h) <;> rcases cmpBounds_lt_iff.mpr hh with hv | hv <;>
        rw [h] at hv <;> cases hv
    · intro h
      exact absurd hh (lt_asymm h)
  · constructor
    · rintro (h | h) <;> rw [cmpBounds_eq_iff.mpr hh] at h <;> cases h
    · intro h
      rw [hh] at h
      exact absurd h (lt_irrefl _)
  · refine ⟨fun _ => hh, fun _ => ?_⟩
    rcases hcv : partialCmpBounds b1 s1 b2 s2 with _ | _ | _ | _ | _
    · exact absurd (cmpBounds_lt_iff.mp (Or.inr hcv)) (lt_asymm hh)
    · exact absurd (cmpBounds_lt_iff.mp (Or.inl hcv)) (lt_asymm hh)
    · exact absurd (cmpBounds_eq_iff.mp hcv) (ne_of_gt hh)
    · exact Or.inl rfl
    · exact Or.inr rfl

theorem cmpBounds_less_iff :
    partialCmpBounds b1 s1 b2 s2 = .Less ↔
      vpt b1 s1 < vpt b2 s2 ∧
        ¬(s1 = .End ∧ s2 = .Start ∧ vadj (vpt b1 s1) (vpt b2 s2)) := by
  constructor
  · intro h
    refine ⟨cmpBounds_lt_iff.mp (Or.inl h), fun hm => ?_⟩
    rw [cmpBounds_meets_iff.mpr hm] at h
    cases h
  · rintro ⟨hlt, hm⟩
    rcases cmpBounds_lt_iff.mpr hlt with h | h
    · exact h
    · exact absurd (cmpBounds_meets_iff.mp h) hm

theorem cmpBounds_greater_iff :
    partialCmpBounds b1 s1 b2 s2 = .Greater ↔
      vpt b2 s2 < vpt b1 s1 ∧
        ¬(s1 = .Start ∧ s2 = .End ∧ vadj (vpt b2 s2) (vpt b1 s1)) := by
  constructor
  · intro h
    refine ⟨cmpBounds_gt_iff.mp (Or.inl h), fun hm => ?_⟩
    rw [cmpBounds_ismet_iff.mpr hm] at h
    cases h
  · rintro ⟨hlt, hm⟩
    rcases cmpBounds_gt_iff.mpr hlt with h | h
    · exact h
    · exact absurd (cmpBounds_ismet_iff.mp h) hm

end CmpBoundsChar

/-- Inverse of a bound ordering under swapping the compared bounds. -/
def BoundOrdering.inv : BoundOrdering → BoundOrdering
  | .Meets => .IsMet
  | .Less => .Greater
  | .Equal => .Equal
  | .Greater => .Less
  | .IsMet => .Meets

section RangeLevel

variable {α : Type} [LinearOrder α]

/-- Swapping the compared bounds inverts the bound ordering. -/
theorem cmpBounds_flip (b1 b2 : Bound α) (s1 s2 : BoundSide) :
    partialCmpBounds b2 s2 b1 s1 = (partialCmpBounds b1 s1 b2 s2).inv := by
  rcases hX : partialCmpBounds b1 s1 b2 s2 with _ | _ | _ | _ | _
  · obtain ⟨h1, h2, h3⟩ := cmpBounds_meets_iff.mp hX
    exact cmpBounds_ismet_iff.mpr ⟨h2, h1, h3⟩
  · obtain ⟨hlt, hnm⟩ := cmpBounds_less_iff.mp hX
    refine cmpBounds_greater_iff.mpr ⟨hlt, ?_⟩
    rintro ⟨u1, u2, u3⟩
    exact hnm ⟨u2, u1, u3⟩
  · exact cmpBounds_eq_iff.mpr ((cmpBounds_eq_iff.mp hX).symm)
  · obtain ⟨hlt, hnm⟩ := cmpBounds_greater_iff.mp hX
    refine cmpBounds_less_iff.mpr ⟨hlt, ?_⟩
    rintro ⟨u1, u2, u3⟩
    exact hnm ⟨u2, u1, u3⟩
  · obtain ⟨h1, h2, h3⟩ := cmpBounds_ismet_iff.mp hX
    exact cmpBounds_meets_iff.mpr ⟨h2, h1, h3⟩

/-- Virtual point of the start of a range (bottom when the range is Empty). -/
def startV (r : ContinuousRange α) : VP α :=
  match r.start_bound with
  | some b => vpt b .Start
  | none => ⊥

/-- Virtual point of the end of a range (top when the range is Empty). -/
def endV (r : ContinuousRange α) : VP α :=
  match r.end_bound with
  | some b => vpt b .End
  | none => vtop

/-- A range that is not empty has bounds, and its virtual start and end points
are the virtual points of those bounds. -/
theorem not_empty_bounds {a : ContinuousRange α} (ha : a.is_empty = false) :
    ∃ sb eb, a.range_bounds = some (sb, eb) ∧ a.start_bound = some sb ∧
      a.end_bound = some eb ∧ startV a = vpt sb .Start ∧ endV a = vpt eb .End := by
  cases a <;>
    simp [ContinuousRange.is_empty] at ha <;>
    exact ⟨_, _, rfl, rfl, rfl, rfl, rfl⟩

/-- The virtual start point of a non-empty range is at most its virtual end
point. -/
theorem startV_le_endV {a : ContinuousRange α} (ha : a.is_empty = false) :
    startV a ≤ endV a := by
  cases a with
  | Empty => simp [ContinuousRange.is_empty] at ha
  | Single v => exact le_refl _
  | Inclusive s e =>
    simp only [ContinuousRange.is_empty, decide_eq_false_iff_not, not_lt] at ha
    simp only [startV, endV, ContinuousRange.start_bound, ContinuousRange.end_bound, vpt,
      vp_le_vp]
    rcases lt_or_eq_of_le ha with h | h
    · exact Or.inl h
    · exact Or.inr ⟨h, le_refl _⟩
  | Exclusive s e =>
    simp only [ContinuousRange.is_empty, decide_eq_false_iff_not, not_le] at ha
    simp only [startV, endV, ContinuousRange.start_bound, ContinuousRange.end_bound, vpt,
      vp_le_vp]
    exact Or.inl ha
  | StartExclusive s e =>
    simp only [ContinuousRange.is_empty, decide_eq_false_iff_not, not_le] at ha
    simp only [startV, endV, ContinuousRange.start_bound, ContinuousRange.end_bound, vpt,
      vp_le_vp]
    exact Or.inl ha
  | EndExclusive s e =>
    simp only [ContinuousRange.is_empty, decide_eq_false_iff_not, not_le] at ha
    simp only [startV, endV, ContinuousRange.start_bound, ContinuousRange.end_bound, vpt,
      vp_le_vp]
    exact Or.inl ha
  | From s => exact le_of_lt vp_lt_vtop
  | FromExclusive s => exact le_of_lt vp_lt_vtop
  | To e => exact bot_le
  | ToExclusive e => exact bot_le
  | Full => exact bot_le

/-- Unfolding of compare for two non-empty ranges with known bounds. -/
theorem compare_eq {a b : ContinuousRange α} {sa ea sb eb : Bound α}
    (ha : a.is_empty = false) (hb : b.is_empty = false)
    (hA : a.range_bounds = some (sa, ea)) (hB : b.range_bounds = some (sb, eb)) :
    a.compare b = classify
      (partialCmpBounds ea .End sb .Start)
      (partialCmpBounds sa .Start eb .End)
      (partialCmpBounds sa .Start sb .Start)
      (partialCmpBounds ea .End eb .End) := by
  simp [ContinuousRange.compare, ha, hb, hA, hB]

end RangeLevel

/-- Relations forced on the four bound comparisons by each classification
outcome. -/
theorem classify_facts : ∀ es se ss ee : BoundOrdering, ∀ rel : RangesRelation,
    classify es se ss ee = some rel →
    (rel = .StrictlyBefore → es = .Less) ∧
    (rel = .Meets → es = .Meets) ∧
    (rel = .StrictlyAfter → se = .Greater) ∧
    (rel = .IsMet → se = .IsMet) ∧
    (rel = .Overlaps → ss = .Less ∧ ee = .Less) ∧
    (rel = .IsOverlapped → ss = .Greater ∧ ee = .Greater) ∧
    (rel = .Starts → ss = .Equal ∧ ee = .Less) ∧
    (rel = .IsStarted → ss = .Equal ∧ ee = .Greater) ∧
    (rel = .StrictlyContains → ss = .Less ∧ ee = .Greater) ∧
    (rel = .IsStrictlyContained → ss = .Greater ∧ ee = .Less) ∧
    (rel = .Finishes → ss = .Greater ∧ ee = .Equal) ∧
    (rel = .IsFinished → ss = .Less ∧ ee = .Equal) ∧
    (rel = .Equal → ss = .Equal ∧ ee = .Equal) := by decide

/-- Classification of a strictly smaller end against the next start. -/
theorem classify_SB : ∀ se ss ee : BoundOrdering,
    classify .Less se ss ee = some .StrictlyBefore := by decide

/-- Classification for reflexive comparisons. -/
theorem classify_equal : ∀ es se : BoundOrdering, es ≠ .Less → es ≠ .Meets →
    se ≠ .Greater → se ≠ .IsMet → classify es se .Equal .Equal = some .Equal := by
  decide

/-- Under the constraints produced by actual bound comparisons of two
non-empty ranges, the classification never falls through to the fallback. -/
theorem classify_isSome : ∀ es se ss ee : BoundOrdering,
    es ≠ .IsMet → se ≠ .Meets → ss ≠ .Meets → ss ≠ .IsMet → ee ≠ .Meets → ee ≠ .IsMet →
    ((es = .Less ∨ es = .Meets) → se = .Less) →
    ((se = .Greater ∨ se = .IsMet) → es = .Greater) →
    (classify es se ss ee).isSome = true := by decide

/-- Under the same constraints, swapping the compared ranges inverts the
classified relation. -/
theorem classify_flip : ∀ es se ss ee : BoundOrdering,
    es ≠ .IsMet → se ≠ .Meets → ss ≠ .Meets → ss ≠ .IsMet → ee ≠ .Meets → ee ≠ .IsMet →
    ((es = .Less ∨ es = .Meets) → se = .Less) →
    ((se = .Greater ∨ se = .IsMet) → es = .Greater) →
    classify se.inv es.inv ss.inv ee.inv =
      (classify es se ss ee).map RangesRelation.inverse := by decide

section CompareLevel

variable {α : Type} [LinearOrder α] {a b : ContinuousRange α} {sa ea sb eb : Bound α}

/-- Constraints satisfied by the four bound comparisons of two non-empty
ranges: the side-determined orderings Meets and IsMet can only appear in their
matching slots, and a strict separation of the ranges on one side forces the
comparison on the other side. -/
theorem compare_constraints (ha : a.is_empty = false) (hb : b.is_empty = false)
    (hA : a.range_bounds = some (sa, ea)) (hB : b.range_bounds = some (sb, eb)) :
    partialCmpBounds ea .End sb .Start ≠ .IsMet ∧
    partialCmpBounds sa .Start eb .End ≠ .Meets ∧
    partialCmpBounds sa .Start sb .Start ≠ .Meets ∧
    partialCmpBounds sa .Start sb .Start ≠ .IsMet ∧
    partialCmpBounds ea .End eb .End ≠ .Meets ∧
    partialCmpBounds ea .End eb .End ≠ .IsMet ∧
    ((partialCmpBounds ea .End sb .Start = .Less ∨
        partialCmpBounds ea .End sb .Start = .Meets) →
      partialCmpBounds sa .Start eb .End = .Less) ∧
    ((partialCmpBounds sa .Start eb .End = .Greater ∨
        partialCmpBounds sa .Start eb .End = .IsMet) →
      partialCmpBounds ea .End sb .Start = .Greater) := by
  obtain ⟨sa', ea', hA', hs, he, hsv, hev⟩ := not_empty_bounds ha
  rw [hA] at hA'
  simp only [Option.some.injEq, Prod.mk.injEq] at hA'
  obtain ⟨rfl, rfl⟩ := hA'
  obtain ⟨sb', eb', hB', hs2, he2, hsv2, hev2⟩ := not_empty_bounds hb
  rw [hB] at hB'
  simp only [Option.some.injEq, Prod.mk.injEq] at hB'
  obtain ⟨rfl, rfl⟩ := hB'
  have hVa : vpt sa .Start ≤ vpt ea .End := by
    rw [← hsv, ← hev]
    exact startV_le_endV ha
  have hVb : vpt sb .Start ≤ vpt eb .End := by
    rw [← hsv2, ← hev2]
    exact startV_le_endV hb
  refine ⟨?_, ?_, ?_, ?_, ?_, ?_, ?_, ?_⟩
  · intro h
    obtain ⟨h1, _, _⟩ := cmpBounds_ismet_iff.mp h
    cases h1
  · intro h
    obtain ⟨h1, _, _⟩ := cmpBounds_meets_iff.mp h
    cases h1
  · intro h
    obtain ⟨h1, _, _⟩ := cmpBounds_meets_iff.mp h
    cases h1
  · intro h
    obtain ⟨_, h2, _⟩ := cmpBounds_ismet_iff.mp h
    cases h2
  · intro h
    obtain ⟨h1, h2, _⟩ := cmpBounds_meets_iff.mp h
    cases h2
  · intro h
    obtain ⟨h1, h2, _⟩ := cmpBounds_ismet_iff.mp h
    cases h1
  · intro h
    have hlt : vpt ea .End < vpt sb .Start := cmpBounds_lt_iff.mp h
    have hchain : vpt sa .Start < vpt eb .End :=
      lt_of_le_of_lt hVa (lt_of_lt_of_le hlt hVb)
    rcases cmpBounds_lt_iff.mpr hchain with h' | h'
    · exact h'
    · obtain ⟨h1, _, _⟩ := cmpBounds_meets_iff.mp h'
      cases h1
  · intro h
    have hlt : vpt eb .End < vpt sa .Start := cmpBounds_gt_iff.mp h
    have hchain : vpt sb .Start < vpt ea .End :=
      lt_of_le_of_lt hVb (lt_of_lt_of_le hlt hVa)
    rcases cmpBounds_gt_iff.mpr hchain with h' | h'
    · exact h'
    · obtain ⟨h1, _, _⟩ := cmpBounds_ismet_iff.mp h'
      cases h1

/-- For two non-empty ranges, compare always produces a relation. -/
theorem compare_isSome (ha : a.is_empty = false) (hb : b.is_empty = false) :
    (a.compare b).isSome = true := by
  obtain ⟨sa, ea, hA, _, _, _, _⟩ := not_empty_bounds ha
  obtain ⟨sb, eb, hB, _, _, _, _⟩ := not_empty_bounds hb
  rw [compare_eq ha hb hA hB]
  obtain ⟨c1, c2, c3, c4, c5, c6, c7, c8⟩ := compare_constraints ha hb hA hB
  exact classify_isSome _ _ _ _ c1 c2 c3 c4 c5 c6 c7 c8

/-- Swapping the compared ranges inverts the relation. -/
theorem compare_flip (a b : ContinuousRange α) :
    b.compare a = (a.compare b).map RangesRelation.inverse := by
  cases ha : a.is_empty <;> cases hb : b.is_empty
  · obtain ⟨sa, ea, hA, _, _, _, _⟩ := not_empty_bounds ha
    obtain ⟨sb, eb, hB, _, _, _, _⟩ := not_empty_bounds hb
    rw [compare_eq ha hb hA hB, compare_eq hb ha hB hA]
    rw [cmpBounds_flip sa eb .Start .End, cmpBounds_flip ea sb .End .Start,
      cmpBounds_flip sa sb .Start .Start, cmpBounds_flip ea eb .End .End]
    obtain ⟨c1, c2, c3, c4, c5, c6, c7, c8⟩ := compare_constraints ha hb hA hB
    exact classify_flip _ _ _ _ c1 c2 c3 c4 c5 c6 c7 c8
  · simp [ContinuousRange.compare, ha, hb]
  · simp [ContinuousRange.compare, ha, hb]
  · simp [ContinuousRange.compare, ha, hb, RangesRelation.inverse]

/-- Comparing a non-empty range with itself yields Equal. -/
theorem compare_self_nonempty (ha : a.is_empty = false) :
    a.compare a = some .Equal := by
  obtain ⟨sa, ea, hA, _, _, hsv, hev⟩ := not_empty_bounds ha
  rw [compare_eq ha ha hA hA]
  have hnl : ¬ vpt ea .End < vpt sa .Start := by
    rw [not_lt, ← hsv, ← hev]
    exact startV_le_endV ha
  have h1 : partialCmpBounds ea .End sa .Start ≠ .Less := fun h =>
    hnl (cmpBounds_lt_iff.mp (Or.inl h))
  have h2 : partialCmpBounds ea .End sa .Start ≠ .Meets := fun h =>
    hnl (cmpBounds_lt_iff.mp (Or.inr h))
  have h3 : partialCmpBounds sa .Start ea .End ≠ .Greater := fun h =>
    hnl (cmpBounds_gt_iff.mp (Or.inl h))
  have h4 : partialCmpBounds sa .Start ea .End ≠ .IsMet := fun h =>
    hnl (cmpBounds_gt_iff.mp (Or.inr h))
  rw [cmpBounds_eq_iff.mpr (rfl : vpt sa .Start = vpt sa .Start),
    cmpBounds_eq_iff.mpr (rfl : vpt ea .End = vpt ea .End)]
  exact classify_equal _ _ h1 h2 h3 h4

/-- Start ordering of the relation of two non-empty ranges is the comparison
of their virtual start points. -/
theorem compare_start_ordering (ha : a.is_empty = false) (hb : b.is_empty = false)
    {rel : RangesRelation} (hcmp : a.compare b = some rel) :
    rel.start_ordering = compare (startV a) (startV b) := by
  obtain ⟨sa, ea, hA, _, _, hsv, hev⟩ := not_empty_bounds ha
  obtain ⟨sb, eb, hB, _, _, hsv2, hev2⟩ := not_empty_bounds hb
  have hFa : vpt sa .Start ≤ vpt ea .End := by
    rw [← hsv, ← hev]
    exact startV_le_endV ha
  have hFb : vpt sb .Start ≤ vpt eb .End := by
    rw [← hsv2, ← hev2]
    exact startV_le_endV hb
  rw [compare_eq ha hb hA hB] at hcmp
  have facts := classify_facts _ _ _ _ rel hcmp
  rw [hsv, hsv2]
  cases rel
  · have hes := facts.1 rfl
    have hlt : vpt sa .Start < vpt sb .Start :=
      lt_of_le_of_lt hFa (cmpBounds_lt_iff.mp (Or.inl hes))
    exact (compare_lt_iff_lt.2 hlt).symm
  · have hse := facts.2.2.1 rfl
    have hlt : vpt sb .Start < vpt sa .Start :=
      lt_of_le_of_lt hFb (cmpBounds_gt_iff.mp (Or.inl hse))
    exact (compare_gt_iff_gt.2 hlt).symm
  · have hes := facts.2.1 rfl
    have hlt : vpt sa .Start < vpt sb .Start :=
      lt_of_le_of_lt hFa (cmpBounds_lt_iff.mp (Or.inr hes))
    exact (compare_lt_iff_lt.2 hlt).symm
  · have hse := facts.2.2.2.1 rfl
    have hlt : vpt sb .Start < vpt sa .Start :=
      lt_of_le_of_lt hFb (cmpBounds_gt_iff.mp (Or.inr hse))
    exact (compare_gt_iff_gt.2 hlt).symm
  · have hss := (facts.2.2.2.2.1 rfl).1
    exact (compare_lt_iff_lt.2 (cmpBounds_lt_iff.mp (Or.inl hss))).symm
  · have hss := (facts.2.2.2.2.2.1 rfl).1
    exact (compare_gt_iff_gt.2 (cmpBounds_gt_iff.mp (Or.inl hss))).symm
  · have hss := (facts.2.2.2.2.2.2.1 rfl).1
    exact (compare_eq_iff_eq.2 (cmpBounds_eq_iff.mp hss)).symm
  · have hss := (facts.2.2.2.2.2.2.2.1 rfl).1
    exact (compare_eq_iff_eq.2 (cmpBounds_eq_iff.mp hss)).symm
  · have hss := (facts.2.2.2.2.2.2.2.2.1 rfl).1
    exact (compare_lt_iff_lt.2 (cmpBounds_lt_iff.mp (Or.inl hss))).symm
  · have hss := (facts.2.2.2.2.2.2.2.2.2.1 rfl).1
    exact (compare_gt_iff_gt.2 (cmpBounds_gt_iff.mp (Or.inl hss))).symm
  · have hss := (facts.2.2.2.2.2.2.2.2.2.2.1 rfl).1
    exact (compare_gt_iff_gt.2 (cmpBounds_gt_iff.mp (Or.inl hss))).symm
  · have hss := (facts.2.2.2.2.2.2.2.2.2.2.2.1 rfl).1
    exact (compare_lt_iff_lt.2 (cmpBounds_lt_iff.mp (Or.inl hss))).symm
  · have hss := (facts.2.2.2.2.2.2.2.2.2.2.2.2 rfl).1
    exact (compare_eq_iff_eq.2 (cmpBounds_eq_iff.mp hss)).symm

end CompareLevel

section SortLaws

variable {α : Type} [LinearOrder α]

/-- Sort key realizing the comparator of simplify_ranges as a linear order:
empty ranges sort below everything, non-empty ranges by virtual start point. -/
def sortKey (r : ContinuousRange α) : WithBot (VP α) :=
  if r.is_empty then ⊥ else (startV r : WithBot (VP α))

theorem sortLE_iff (a b : ContinuousRange α) :
    sortLE a b = true ↔ sortKey a ≤ sortKey b := by
  unfold sortLE sortOrd sortKey
  cases ha : a.is_empty <;> cases hb : b.is_empty
  · obtain ⟨rel, hrel⟩ := Option.isSome_iff_exists.mp (compare_isSome ha hb)
    rw [hrel]
    simp [compare_start_ordering ha hb hrel, compare_le_iff_le, WithBot.coe_le_coe]
  · have hc : a.compare b = none := by
      simp [ContinuousRange.compare, ha, hb]
    rw [hc]
    simp [ha, hb, WithBot.not_coe_le_bot]
  · have hc : a.compare b = none := by
      simp [ContinuousRange.compare, ha, hb]
    rw [hc]
    simp [ha, hb]
  · have hc : a.compare b = some .Equal := by
      simp [ContinuousRange.compare, ha, hb]
    rw [hc]
    simp [ha, hb, RangesRelation.start_ordering]

theorem sortLE_trans : ∀ a b c : ContinuousRange α,
    sortLE a b → sortLE b c → sortLE a c := by
  intro a b c hab hbc
  rw [sortLE_iff] at hab hbc ⊢
  exact le_trans hab hbc

theorem sortLE_total : ∀ a b : ContinuousRange α, sortLE a b || sortLE b a := by
  intro a b
  rcases le_total (sortKey a) (sortKey b) with h | h
  · simp [Bool.or_eq_true, sortLE_iff, h]
  · simp [Bool.or_eq_true, sortLE_iff, h]

end SortLaws

section FromBounds

variable {α : Type} [LinearOrder α] {v1 v2 : α}

open ContinuousRange

theorem inclusive_not_empty (h : v1 ≤ v2) : (inclusive v1 v2).is_empty = false := by
  unfold inclusive
  split_ifs with h1 h2
  · rfl
  · exact absurd h2 (not_lt.mpr h)
  · simp only [ContinuousRange.is_empty, decide_eq_false_iff_not]
    exact not_lt.mpr h

theorem inclusive_bounds (h : v1 ≤ v2) :
    (inclusive v1 v2).range_bounds = some (.Included v1, .Included v2) := by
  unfold inclusive
  split_ifs with h1 h2
  · rw [h1]
    rfl
  · exact absurd h2 (not_lt.mpr h)
  · rfl

theorem exclusive_not_empty (h : v1 < v2) : (exclusive v1 v2).is_empty = false := by
  unfold exclusive
  rw [if_neg (not_le.mpr h)]
  simp only [ContinuousRange.is_empty, decide_eq_false_iff_not]
  exact not_le.mpr h

theorem exclusive_bounds (h : v1 < v2) :
    (exclusive v1 v2).range_bounds = some (.Excluded v1, .Excluded v2) := by
  unfold exclusive
  rw [if_neg (not_le.mpr h)]
  rfl

theorem start_exclusive_not_empty (h : v1 < v2) :
    (start_exclusive v1 v2).is_empty = false := by
  unfold start_exclusive
  rw [if_neg (not_le.mpr h)]
  simp only [ContinuousRange.is_empty, decide_eq_false_iff_not]
  exact not_le.mpr h

theorem start_exclusive_bounds (h : v1 < v2) :
    (start_exclusive v1 v2).range_bounds = some (.Excluded v1, .Included v2) := by
  unfold start_exclusive
  rw [if_neg (not_le.mpr h)]
  rfl

theorem end_exclusive_not_empty (h : v1 < v2) :
    (end_exclusive v1 v2).is_empty = false := by
  unfold end_exclusive
  rw [if_neg (not_le.mpr h)]
  simp only [ContinuousRange.is_empty, decide_eq_false_iff_not]
  exact not_le.mpr h

theorem end_exclusive_bounds (h : v1 < v2) :
    (end_exclusive v1 v2).range_bounds = some (.Included v1, .Excluded v2) := by
  unfold end_exclusive
  rw [if_neg (not_le.mpr h)]
  rfl

/-- A bound pair whose virtual start is at most its virtual end yields a
non-empty range. -/
theorem from_bounds_not_empty {s e : Bound α} (h : vpt s .Start ≤ vpt e .End) :
    (from_bounds (s, e)).is_empty = false := by
  rcases s with v1 | v1 | _ <;> rcases e with v2 | v2 | _ <;>
    simp only [vpt, vp_le_vp, from_bounds] at h ⊢
  · rcases h with h | ⟨h, _⟩
    · exact inclusive_not_empty (le_of_lt h)
    · exact inclusive_not_empty (le_of_eq h)
  · rcases h with h | ⟨_, h⟩
    · exact end_exclusive_not_empty h
    · omega
  · rfl
  · rcases h with h | ⟨_, h⟩
    · exact start_exclusive_not_empty h
    · omega
  · rcases h with h | ⟨_, h⟩
    · exact exclusive_not_empty h
    · omega
  · rfl
  · rfl
  · rfl
  · rfl

/-- A bound pair whose virtual start is at most its virtual end is preserved
exactly by from_bounds. -/
theorem from_bounds_bounds {s e : Bound α} (h : vpt s .Start ≤ vpt e .End) :
    (from_bounds (s, e)).range_bounds = some (s, e) := by
  rcases s with v1 | v1 | _ <;> rcases e with v2 | v2 | _ <;>
    simp only [vpt, vp_le_vp, from_bounds] at h ⊢
  · rcases h with h | ⟨h, _⟩
    · exact inclusive_bounds (le_of_lt h)
    · exact inclusive_bounds (le_of_eq h)
  · rcases h with h | ⟨_, h⟩
    · exact end_exclusive_bounds h
    · omega
  · rfl
  · rcases h with h | ⟨_, h⟩
    · exact start_exclusive_bounds h
    · omega
  · rcases h with h | ⟨_, h⟩
    · exact exclusive_bounds h
    · omega
  · rfl
  · rfl
  · rfl
  · rfl

/-- Virtual start and end points read off the bounds of a range. -/
theorem range_bounds_startV_endV {a : ContinuousRange α} {p q : Bound α}
    (h : a.range_bounds = some (p, q)) :
    startV a = vpt p .Start ∧ endV a = vpt q .End := by
  cases a <;>
    first
      | (simp only [ContinuousRange.range_bounds, Option.some.injEq, Prod.mk.injEq] at h
         obtain ⟨rfl, rfl⟩ := h
         exact ⟨rfl, rfl⟩)
      | simp [ContinuousRange.range_bounds] at h

/-- Per-range simplify is idempotent. -/
theorem simplify_idem (a : ContinuousRange α) : a.simplify.simplify = a.simplify := by
  cases a <;> simp only [ContinuousRange.simplify] <;> split_ifs <;>
    simp_all [ContinuousRange.simplify]

/-- Results of from_bounds are fixed points of simplify. -/
theorem simplify_from_bounds (s e : Bound α) :
    (from_bounds (s, e)).simplify = from_bounds (s, e) := by
  rcases s with v1 | v1 | _ <;> rcases e with v2 | v2 | _ <;>
    simp only [from_bounds, inclusive, exclusive, start_exclusive, end_exclusive] <;>
    (try split_ifs) <;> simp_all [ContinuousRange.simplify]

/-- A simplified range that is not the Empty constructor is not empty. -/
theorem simplify_not_empty {a : ContinuousRange α} (h : a.simplify ≠ .Empty) :
    a.simplify.is_empty = false := by
  cases a <;> simp only [ContinuousRange.simplify] at h ⊢ <;> (try split_ifs) <;>
    simp_all [ContinuousRange.is_empty]

end FromBounds

section MergeSpec

variable {α : Type} [LinearOrder α]

open ContinuousRange

/-- Invariants of the merge pass of simplify_ranges: starting from a non-empty
write element of minimal virtual start over a start-sorted list of non-empty
elements, every output element is non-empty, consecutive output elements are
strictly before one another, the head of the output keeps the virtual start of
the write element, and output elements are fixed points of simplify whenever
the inputs are. -/
theorem mergeRanges_spec (rs : List (ContinuousRange α)) :
    ∀ w : ContinuousRange α, w.is_empty = false →
    (∀ r ∈ rs, r.is_empty = false) →
    (∀ r ∈ rs, startV w ≤ startV r) →
    List.Pairwise (fun x y => startV x ≤ startV y) rs →
    (∀ x ∈ mergeRanges w rs, x.is_empty = false) ∧
    List.Chain' (fun x y => x.compare y = some .StrictlyBefore) (mergeRanges w rs) ∧
    (∃ h t, mergeRanges w rs = h :: t ∧ startV h = startV w) ∧
    (w.simplify = w → (∀ r ∈ rs, r.simplify = r) →
      ∀ x ∈ mergeRanges w rs, x.simplify = x) := by
  induction rs with
  | nil =>
    intro w hw _ _ _
    refine ⟨?_, ?_, ⟨w, [], by simp [mergeRanges], rfl⟩, ?_⟩
    · intro x hx
      simp only [mergeRanges, List.mem_singleton] at hx
      rw [hx]
      exact hw
    · simp [mergeRanges]
    · intro hfw _ x hx
      simp only [mergeRanges, List.mem_singleton] at hx
      rw [hx]
      exact hfw
  | cons r rest ih =>
    intro w hw hall hkeys hpair
    have hr : r.is_empty = false := hall r (by simp)
    have hrest : ∀ x ∈ rest, x.is_empty = false := fun x hx =>
      hall x (List.mem_cons_of_mem _ hx)
    have hpr : ∀ x ∈ rest, startV r ≤ startV x := fun x hx =>
      (List.pairwise_cons.mp hpair).1 x hx
    have hpair' := (List.pairwise_cons.mp hpair).2
    have hkey_r : startV w ≤ startV r := hkeys r (by simp)
    obtain ⟨sw, ew, hW, hWs, hWe, hWsv, hWev⟩ := not_empty_bounds hw
    obtain ⟨sr, er, hR, hRs, hRe, hRsv, hRev⟩ := not_empty_bounds hr
    have hFw : startV w ≤ endV w := startV_le_endV hw
    have hFr : startV r ≤ endV r := startV_le_endV hr
    cases hcmp : w.compare r with
    | none =>
      have hs := compare_isSome hw hr
      rw [hcmp] at hs
      cases hs
    | some rel =>
      have hclass := hcmp
      rw [compare_eq hw hr hW hR] at hclass
      have facts := classify_facts _ _ _ _ rel hclass
      cases rel with
      | StrictlyBefore =>
        simp only [mergeRanges, hcmp]
        obtain ⟨ih1, ih2, ⟨h, t, hht, hstart⟩, ih4⟩ := ih r hr hrest hpr hpair'
        have hes : partialCmpBounds ew .End sr .Start = .Less := facts.1 rfl
        have hlt : endV w < startV r := by
          rw [hWev, hRsv]
          exact cmpBounds_lt_iff.mp (Or.inl hes)
        have hnadj : ¬ vadj (endV w) (startV r) := by
          intro hadj
          rw [hWev, hRsv] at hadj
          have hm : partialCmpBounds ew .End sr .Start = .Meets :=
            cmpBounds_meets_iff.mpr ⟨rfl, rfl, hadj⟩
          rw [hes] at hm
          cases hm
        have hh_ne : h.is_empty = false := ih1 h (by rw [hht]; simp)
        obtain ⟨sh, eh, hH, _, _, hHsv, hHev⟩ := not_empty_bounds hh_ne
        have hcmpWH : w.compare h = some .StrictlyBefore := by
          rw [compare_eq hw hh_ne hW hH]
          have hes2 : partialCmpBounds ew .End sh .Start = .Less := by
            apply cmpBounds_less_iff.mpr
            constructor
            · rw [← hWev, ← hHsv, hstart, hRsv]
              rw [hRsv] at hlt
              exact hlt
            · rintro ⟨_, _, hadj⟩
              apply hnadj
              rw [← hWev, ← hHsv, hstart] at hadj
              exact hadj
          rw [hes2]
          exact classify_SB _ _ _
        refine ⟨?_, ?_, ⟨w, mergeRanges r rest, rfl, rfl⟩, ?_⟩
        · intro x hx
          rcases List.mem_cons.mp hx with rfl | hx
          · exact hw
          · exact ih1 x hx
        · rw [hht]
          exact List.chain'_cons.mpr ⟨hcmpWH, by rw [← hht]; exact ih2⟩
        · intro hfw hfrs x hx
          rcases List.mem_cons.mp hx with rfl | hx
          · exact hfw
          · exact ih4 (hfrs r (by simp)) (fun y hy => hfrs y (List.mem_cons_of_mem _ hy)) x hx
      | StrictlyAfter =>
        have hse : partialCmpBounds sw .Start er .End = .Greater := facts.2.2.1 rfl
        have hlt : endV r < startV w := by
          rw [hWsv, hRev]
          exact cmpBounds_gt_iff.mp (Or.inl hse)
        exact absurd hkey_r (not_le.mpr (lt_of_le_of_lt hFr hlt))
      | Meets =>
        simp only [mergeRanges, hcmp]
        have hu : w.union_knowing_cmp r .Meets = some (from_bounds (sw, er)) := by
          simp [union_knowing_cmp, hWs, hRe]
        rw [hu]
        have hes : partialCmpBounds ew .End sr .Start = .Meets := facts.2.1 rfl
        have hadj : vadj (endV w) (startV r) := by
          rw [hWev, hRsv]
          exact (cmpBounds_meets_iff.mp hes).2.2
        have hlt : endV w < startV r := vadj_lt hadj
        have hle : vpt sw .Start ≤ vpt er .End := by
          rw [← hWsv, ← hRev]
          exact le_trans hFw (le_trans (le_of_lt hlt) hFr)
        have hu_ne : (from_bounds (sw, er)).is_empty = false := from_bounds_not_empty hle
        have hu_bounds : (from_bounds (sw, er)).range_bounds = some (sw, er) :=
          from_bounds_bounds hle
        have hu_sw : startV (from_bounds (sw, er)) = startV w := by
          rw [(range_bounds_startV_endV hu_bounds).1, hWsv]
        obtain ⟨ih1, ih2, ⟨h, t, hht, hstart⟩, ih4⟩ := ih (from_bounds (sw, er)) hu_ne hrest
          (fun x hx => by
            rw [hu_sw]
            exact hkeys x (List.mem_cons_of_mem _ hx)) hpair'
        refine ⟨ih1, ih2, ⟨h, t, hht, by rw [hstart, hu_sw]⟩, ?_⟩
        intro _ hfrs
        exact ih4 (simplify_from_bounds sw er)
          (fun y hy => hfrs y (List.mem_cons_of_mem _ hy))
      | IsMet =>
        have hse : partialCmpBounds sw .Start er .End = .IsMet := facts.2.2.2.1 rfl
        have hlt : endV r < startV w := by
          rw [hWsv, hRev]
          exact cmpBounds_gt_iff.mp (Or.inr hse)
        exact absurd hkey_r (not_le.mpr (lt_of_le_of_lt hFr hlt))
      | Overlaps =>
        simp only [mergeRanges, hcmp]
        have hu : w.union_knowing_cmp r .Overlaps = some (from_bounds (sw, er)) := by
          simp [union_knowing_cmp, hWs, hRe]
        rw [hu]
        have hee : partialCmpBounds ew .End er .End = .Less :=
          (facts.2.2.2.2.1 rfl).2
        have hlt : endV w < endV r := by
          rw [hWev, hRev]
          exact cmpBounds_lt_iff.mp (Or.inl hee)
        have hle : vpt sw .Start ≤ vpt er .End := by
          rw [← hWsv, ← hRev]
          exact le_trans hFw (le_of_lt hlt)
        have hu_ne : (from_bounds (sw, er)).is_empty = false := from_bounds_not_empty hle
        have hu_bounds : (from_bounds (sw, er)).range_bounds = some (sw, er) :=
          from_bounds_bounds hle
        have hu_sw : startV (from_bounds (sw, er)) = startV w := by
          rw [(range_bounds_startV_endV hu_bounds).1, hWsv]
        obtain ⟨ih1, ih2, ⟨h, t, hht, hstart⟩, ih4⟩ := ih (from_bounds (sw, er)) hu_ne hrest
          (fun x hx => by
            rw [hu_sw]
            exact hkeys x (List.mem_cons_of_mem _ hx)) hpair'
        refine ⟨ih1, ih2, ⟨h, t, hht, by rw [hstart, hu_sw]⟩, ?_⟩
        intro _ hfrs
        exact ih4 (simplify_from_bounds sw er)
          (fun y hy => hfrs y (List.mem_cons_of_mem _ hy))
      | IsOverlapped =>
        have hss : partialCmpBounds sw .Start sr .Start = .Greater :=
          (facts.2.2.2.2.2.1 rfl).1
        have hlt : startV r < startV w := by
          rw [hWsv, hRsv]
          exact cmpBounds_gt_iff.mp (Or.inl hss)
        exact absurd hkey_r (not_le.mpr hlt)
      | Starts =>
        simp only [mergeRanges, hcmp]
        have hss : partialCmpBounds sw .Start sr .Start = .Equal :=
          (facts.2.2.2.2.2.2.1 rfl).1
        have hsseq : startV r = startV w := by
          rw [hWsv, hRsv]
          exact (cmpBounds_eq_iff.mp hss).symm
        obtain ⟨ih1, ih2, ⟨h, t, hht, hstart⟩, ih4⟩ := ih r hr hrest hpr hpair'
        refine ⟨ih1, ih2, ⟨h, t, hht, by rw [hstart, hsseq]⟩, ?_⟩
        intro _ hfrs
        exact ih4 (hfrs r (by simp)) (fun y hy => hfrs y (List.mem_cons_of_mem _ hy))
      | IsStarted =>
        simp only [mergeRanges, hcmp]
        obtain ⟨ih1, ih2, hhead, ih4⟩ := ih w hw hrest
          (fun x hx => hkeys x (List.mem_cons_of_mem _ hx)) hpair'
        exact ⟨ih1, ih2, hhead, fun hfw hfrs =>
          ih4 hfw (fun y hy => hfrs y (List.mem_cons_of_mem _ hy))⟩
      | StrictlyContains =>
        simp only [mergeRanges, hcmp]
        obtain ⟨ih1, ih2, hhead, ih4⟩ := ih w hw hrest
          (fun x hx => hkeys x (List.mem_cons_of_mem _ hx)) hpair'
        exact ⟨ih1, ih2, hhead, fun hfw hfrs =>
          ih4 hfw (fun y hy => hfrs y (List.mem_cons_of_mem _ hy))⟩
      | IsStrictlyContained =>
        have hss : partialCmpBounds sw .Start sr .Start = .Greater :=
          (facts.2.2.2.2.2.2.2.2.2.1 rfl).1
        have hlt : startV r < startV w := by
          rw [hWsv, hRsv]
          exact cmpBounds_gt_iff.mp (Or.inl hss)
        exact absurd hkey_r (not_le.mpr hlt)
      | Finishes =>
        have hss : partialCmpBounds sw .Start sr .Start = .Greater :=
          (facts.2.2.2.2.2.2.2.2.2.2.1 rfl).1
        have hlt : startV r < startV w := by
          rw [hWsv, hRsv]
          exact cmpBounds_gt_iff.mp (Or.inl hss)
        exact absurd hkey_r (not_le.mpr hlt)
      | IsFinished =>
        simp only [mergeRanges, hcmp]
        obtain ⟨ih1, ih2, hhead, ih4⟩ := ih w hw hrest
          (fun x hx => hkeys x (List.mem_cons_of_mem _ hx)) hpair'
        exact ⟨ih1, ih2, hhead, fun hfw hfrs =>
          ih4 hfw (fun y hy => hfrs y (List.mem_cons_of_mem _ hy))⟩
      | Equal =>
        simp only [mergeRanges, hcmp]
        obtain ⟨ih1, ih2, hhead, ih4⟩ := ih w hw hrest
          (fun x hx => hkeys x (List.mem_cons_of_mem _ hx)) hpair'
        exact ⟨ih1, ih2, hhead, fun hfw hfrs =>
          ih4 hfw (fun y hy => hfrs y (List.mem_cons_of_mem _ hy))⟩

end MergeSpec

section RemoveEmptiesSpec

open List

variable {β : Type}

theorem swap_remove_length (l : List β) (i : Nat) (h : i < l.length) :
    (swap_remove l i).length = l.length - 1 := by
  cases l with
  | nil => cases h
  | cons a t =>
    unfold swap_remove
    rw [List.getLast?_eq_getLast _ (by simp)]
    simp

theorem swap_remove_getD (l : List β) (d : β) (i j : Nat) (hi : i < l.length)
    (hj : j < l.length - 1) :
    (swap_remove l i).getD j d =
      if i = j then l.getD (l.length - 1) d else l.getD j d := by
  cases l with
  | nil => cases hi
  | cons a t =>
    unfold swap_remove
    rw [List.getLast?_eq_getLast _ (by simp)]
    have hlen : (((a :: t).set i ((a :: t).getLast (by simp))).dropLast).length =
        (a :: t).length - 1 := by simp
    rw [List.getD_eq_getElem _ d (by rw [hlen]; exact hj)]
    rw [List.getElem_dropLast, List.getElem_set]
    rw [List.getD_eq_getElem _ d (show (a :: t).length - 1 < (a :: t).length by
      simp)]
    rw [List.getD_eq_getElem _ d (show j < (a :: t).length by omega)]
    by_cases hij : i = j
    · rw [if_pos hij, if_pos hij, List.getLast_eq_getElem]
    · rw [if_neg hij, if_neg hij]

theorem swap_remove_perm : ∀ (l : List β) (i : Nat), i < l.length →
    swap_remove l i ~ l.eraseIdx i := by
  intro l
  induction l with
  | nil => intro i h; cases h
  | cons a t ih =>
    intro i h
    cases t with
    | nil =>
      cases i with
      | zero =>
        unfold swap_remove
        rfl
      | succ i => simp at h
    | cons b t2 =>
      cases i with
      | zero =>
        unfold swap_remove
        rw [List.getLast?_eq_getLast _ (by simp), List.getLast_cons (by simp)]
        simp only [List.set_cons_zero, List.dropLast_cons₂, List.eraseIdx_cons_zero]
        calc (b :: t2).getLast (by simp) :: (b :: t2).dropLast
            ~ (b :: t2).dropLast ++ [(b :: t2).getLast (by simp)] :=
              (List.perm_append_singleton _ _).symm
          _ = b :: t2 := List.dropLast_append_getLast (by simp)
      | succ i =>
        unfold swap_remove
        rw [List.getLast?_eq_getLast _ (by simp), List.getLast_cons (by simp)]
        simp only [List.set_cons_succ]
        rw [List.dropLast_cons_of_ne_nil (by simp), List.eraseIdx_cons_succ]
        apply List.Perm.cons
        have hlt : i < (b :: t2).length := by simpa using h
        have := ih i hlt
        unfold swap_remove at this
        rw [List.getLast?_eq_getLast _ (by simp)] at this
        exact this

theorem eraseIdx_filter_of_not {l : List β} {p : β → Bool} {d : β} {i : Nat}
    (h : i < l.length) (hp : p (l.getD i d) = false) :
    (l.eraseIdx i).filter p = l.filter p := by
  conv_rhs => rw [← List.take_append_drop i l]
  rw [List.eraseIdx_eq_take_drop_succ, List.filter_append, List.filter_append]
  congr 1
  rw [List.drop_eq_getElem_cons h, List.filter_cons]
  have hpi : p l[i] = false := by
    rw [← List.getD_eq_getElem l d h]
    exact hp
  rw [hpi]
  simp

theorem foldl_swap_remove_perm (p : β → Bool) (d : β) :
    ∀ (J : List Nat) (l : List β),
    List.Pairwise (fun i j => j < i) J →
    (∀ j ∈ J, j < l.length) →
    (∀ j, j < l.length → (p (l.getD j d) = false ↔ j ∈ J)) →
    J.foldl swap_remove l ~ l.filter p := by
  intro J
  induction J with
  | nil =>
    intro l _ _ hpos
    rw [List.foldl_nil, List.filter_eq_self.mpr]
    intro a ha
    obtain ⟨j, hj, rfl⟩ := List.mem_iff_getElem.mp ha
    have := hpos j hj
    rw [List.getD_eq_getElem l d hj] at this
    simp only [List.not_mem_nil, iff_false] at this
    exact Bool.not_eq_false _ |>.mp this
  | cons i J2 ih =>
    intro l hpair hJlen hpos
    have hi : i < l.length := hJlen i (by simp)
    have hpi : p (l.getD i d) = false := (hpos i hi).mpr (by simp)
    have hJ2lt : ∀ j ∈ J2, j < i := fun j hj => (List.pairwise_cons.mp hpair).1 j hj
    have hlen2 : (swap_remove l i).length = l.length - 1 := swap_remove_length l i hi
    rw [List.foldl_cons]
    have hpos2 : ∀ j, j < (swap_remove l i).length →
        (p ((swap_remove l i).getD j d) = false ↔ j ∈ J2) := by
      intro j hj
      rw [hlen2] at hj
      rw [swap_remove_getD l d i j hi hj]
      by_cases hij : i = j
      · subst hij
        rw [if_pos rfl]
        have hlast : ¬ p (l.getD (l.length - 1) d) = false := by
          rw [hpos (l.length - 1) (by omega)]
          simp only [List.mem_cons]
          rintro (h | h)
          · omega
          · have := hJ2lt _ h
            omega
        constructor
        · intro h
          exact absurd h hlast
        · intro h
          have := hJ2lt _ h
          omega
      · rw [if_neg hij]
        rw [hpos j (by omega)]
        simp only [List.mem_cons]
        constructor
        · rintro (h | h)
          · exact absurd h.symm hij
          · exact h
        · exact fun h => Or.inr h
    have hJlen2 : ∀ j ∈ J2, j < (swap_remove l i).length := by
      intro j hj
      rw [hlen2]
      have := hJ2lt j hj
      omega
    calc J2.foldl swap_remove (swap_remove l i)
        ~ (swap_remove l i).filter p :=
          ih (swap_remove l i) (List.pairwise_cons.mp hpair).2 hJlen2 hpos2
      _ ~ (l.eraseIdx i).filter p := (swap_remove_perm l i hi).filter p
      _ = l.filter p := eraseIdx_filter_of_not hi hpi

/-- The removal phase of simplify_ranges is a permutation of dropping all
Empty elements. -/
theorem removeEmpties_perm {α : Type} [LinearOrder α] (l : List (ContinuousRange α)) :
    removeEmpties l ~ l.filter (fun x => decide (x ≠ ContinuousRange.Empty)) := by
  unfold removeEmpties
  apply foldl_swap_remove_perm _ ContinuousRange.Empty
  · rw [List.pairwise_reverse]
    exact (List.pairwise_lt_range _).filter _
  · intro j hj
    rw [List.mem_reverse, List.mem_filter, List.mem_range] at hj
    exact hj.1
  · intro j hj
    rw [List.mem_reverse, List.mem_filter, List.mem_range]
    rw [List.getD_eq_getElem l ContinuousRange.Empty hj]
    simp only [decide_eq_false_iff_not, not_not, hj, true_and,
      List.getD_eq_getElem l ContinuousRange.Empty hj, decide_eq_true_eq]

/-- When no element is Empty, the removal phase is the identity. -/
theorem removeEmpties_of_no_empty {α : Type} [LinearOrder α]
    (l : List (ContinuousRange α)) (h : ∀ x ∈ l, x ≠ ContinuousRange.Empty) :
    removeEmpties l = l := by
  unfold removeEmpties
  have hnil : (List.range l.length).filter
      (fun i => decide (l.getD i ContinuousRange.Empty = ContinuousRange.Empty)) = [] := by
    rw [List.filter_eq_nil_iff]
    intro i hi
    rw [List.mem_range] at hi
    rw [List.getD_eq_getElem l ContinuousRange.Empty hi]
    simp only [decide_eq_true_eq]
    exact h _ (List.getElem_mem hi)
  rw [hnil]
  rfl

end RemoveEmptiesSpec

section SimplifySpec

open List

variable {α : Type} [LinearOrder α]

theorem compare_SB_not_empty {x y : ContinuousRange α}
    (h : x.compare y = some .StrictlyBefore) :
    x.is_empty = false ∧ y.is_empty = false := by
  cases hx : x.is_empty <;> cases hy : y.is_empty
  · exact ⟨rfl, rfl⟩
  · simp [ContinuousRange.compare, hx, hy] at h
  · simp [ContinuousRange.compare, hx, hy] at h
  · simp [ContinuousRange.compare, hx, hy] at h

/-- The strictly-before relation on ranges is transitive. -/
theorem SB_trans {x y z : ContinuousRange α}
    (hxy : x.compare y = some .StrictlyBefore)
    (hyz : y.compare z = some .StrictlyBefore) :
    x.compare z = some .StrictlyBefore := by
  obtain ⟨hx, hy⟩ := compare_SB_not_empty hxy
  obtain ⟨_, hz⟩ := compare_SB_not_empty hyz
  obtain ⟨sx, ex, hX, _, _, hXsv, hXev⟩ := not_empty_bounds hx
  obtain ⟨sy, ey, hY, _, _, hYsv, hYev⟩ := not_empty_bounds hy
  obtain ⟨sz, ez, hZ, _, _, hZsv, hZev⟩ := not_empty_bounds hz
  rw [compare_eq hx hy hX hY] at hxy
  rw [compare_eq hy hz hY hZ] at hyz
  have hes1 : partialCmpBounds ex .End sy .Start = .Less :=
    (classify_facts _ _ _ _ _ hxy).1 rfl
  have hes2 : partialCmpBounds ey .End sz .Start = .Less :=
    (classify_facts _ _ _ _ _ hyz).1 rfl
  have hlt1 : vpt ex .End < vpt sy .Start := cmpBounds_lt_iff.mp (Or.inl hes1)
  have hlt2 : vpt ey .End < vpt sz .Start := cmpBounds_lt_iff.mp (Or.inl hes2)
  have hyF : vpt sy .Start ≤ vpt ey .End := by
    rw [← hYsv, ← hYev]
    exact startV_le_endV hy
  have hlt : vpt ex .End < vpt sz .Start :=
    lt_trans (lt_of_lt_of_le hlt1 hyF) hlt2
  rw [compare_eq hx hz hX hZ]
  have hes : partialCmpBounds ex .End sz .Start = .Less := by
    apply cmpBounds_less_iff.mpr
    refine ⟨hlt, ?_⟩
    rintro ⟨_, _, hadj⟩
    have hmid2 : vpt sy .Start < vpt sz .Start := lt_of_le_of_lt hyF hlt2
    rcases vpt_shape sy .Start with hs | hs | ⟨v, e, hs⟩
    · rw [hs] at hlt1
      exact absurd hlt1 (by simp)
    · rw [hs] at hmid2
      rcases vpt_shape sz .Start with h2 | h2 | ⟨u, f, h2⟩ <;> rw [h2] at hmid2 <;>
        simp at hmid2
    · rw [hs] at hlt1 hmid2
      exact vadj_no_vp_mid hadj hlt1 hmid2
  rw [hes]
  exact classify_SB _ _ _

theorem chain_SB_pairwise {l : List (ContinuousRange α)}
    (h : List.Chain' (fun x y => x.compare y = some .StrictlyBefore) l) :
    List.Pairwise (fun x y => x.compare y = some .StrictlyBefore) l := by
  haveI : IsTrans (ContinuousRange α)
      (fun x y => x.compare y = some .StrictlyBefore) := ⟨fun _ _ _ => SB_trans⟩
  exact List.chain'_iff_pairwise.mp h

/-- Master specification of simplify_ranges: the output has no empty element,
consecutive elements are strictly before one another, and every element is a
fixed point of the per-range simplify. -/
theorem simplify_ranges_spec (rs : List (ContinuousRange α)) :
    (∀ x ∈ simplify_ranges rs, x.is_empty = false) ∧
    List.Chain' (fun x y => x.compare y = some .StrictlyBefore) (simplify_ranges rs) ∧
    (∀ x ∈ simplify_ranges rs, x.simplify = x) := by
  by_cases hnil : rs.isEmpty = true
  · have : rs = [] := List.isEmpty_iff.mp hnil
    subst this
    simp [simplify_ranges]
  · unfold simplify_ranges
    rw [if_neg hnil]
    by_cases hfull : (rs.map ContinuousRange.simplify).any ContinuousRange.is_full = true
    · rw [if_pos hfull]
      refine ⟨?_, ?_, ?_⟩ <;>
        simp [ContinuousRange.is_empty, ContinuousRange.simplify]
    · rw [if_neg hfull]
      have hperm1 : (removeEmpties (rs.map ContinuousRange.simplify)).mergeSort sortLE ~
          removeEmpties (rs.map ContinuousRange.simplify) :=
        List.mergeSort_perm _ sortLE
      have hperm2 := removeEmpties_perm (rs.map ContinuousRange.simplify)
      have hmem : ∀ x ∈ (removeEmpties (rs.map ContinuousRange.simplify)).mergeSort sortLE,
          (∃ y, x = ContinuousRange.simplify y) ∧ x ≠ .Empty := by
        intro x hx
        have hx3 := hperm2.subset (hperm1.subset hx)
        rw [List.mem_filter] at hx3
        obtain ⟨hx4, hx5⟩ := hx3
        rw [List.mem_map] at hx4
        obtain ⟨y, _, rfl⟩ := hx4
        exact ⟨⟨y, rfl⟩, by simpa using hx5⟩
      have hne : ∀ x ∈ (removeEmpties (rs.map ContinuousRange.simplify)).mergeSort sortLE,
          x.is_empty = false := by
        intro x hx
        obtain ⟨⟨y, rfl⟩, hne⟩ := hmem x hx
        exact simplify_not_empty hne
      have hfix : ∀ x ∈ (removeEmpties (rs.map ContinuousRange.simplify)).mergeSort sortLE,
          x.simplify = x := by
        intro x hx
        obtain ⟨⟨y, rfl⟩, _⟩ := hmem x hx
        exact simplify_idem y
      have hsort : List.Pairwise (fun a b => sortLE a b = true)
          ((removeEmpties (rs.map ContinuousRange.simplify)).mergeSort sortLE) :=
        List.sorted_mergeSort sortLE_trans sortLE_total _
      have hkeys : List.Pairwise (fun a b => startV a ≤ startV b)
          ((removeEmpties (rs.map ContinuousRange.simplify)).mergeSort sortLE) := by
        refine List.Pairwise.imp_of_mem ?_ hsort
        intro a b ha hb hab
        have h1 := (sortLE_iff a b).mp hab
        rw [sortKey, sortKey, if_neg (by rw [hne a ha]; exact Bool.false_ne_true),
          if_neg (by rw [hne b hb]; exact Bool.false_ne_true)] at h1
        exact WithBot.coe_le_coe.mp h1
      cases hs : (removeEmpties (rs.map ContinuousRange.simplify)).mergeSort sortLE with
      | nil => simp
      | cons w t =>
        rw [hs] at hne hfix hkeys
        obtain ⟨m1, m2, _, m4⟩ := mergeRanges_spec t w (hne w (by simp))
          (fun r hr => hne r (List.mem_cons_of_mem _ hr))
          (fun r hr => (List.pairwise_cons.mp hkeys).1 r hr)
          ((List.pairwise_cons.mp hkeys).2)
        exact ⟨m1, m2, m4 (hfix w (by simp)) (fun r hr => hfix r (List.mem_cons_of_mem _ hr))⟩

end SimplifySpec

section IdemSupport

open List

variable {α : Type} [LinearOrder α]

theorem is_full_iff {x : ContinuousRange α} : x.is_full = true ↔ x = .Full := by
  cases x <;> simp [ContinuousRange.is_full]

theorem not_empty_of_is_full {x : ContinuousRange α} (h : x.is_full = true) :
    x.is_empty = false := by
  rw [is_full_iff.mp h]
  rfl

theorem ne_Empty_of_not_empty {x : ContinuousRange α} (h : x.is_empty = false) :
    x ≠ .Empty := by
  intro he
  rw [he] at h
  simp [ContinuousRange.is_empty] at h

theorem compare_right_full_ne_SB (x : ContinuousRange α) :
    x.compare ContinuousRange.Full ≠ some .StrictlyBefore := by
  intro h
  obtain ⟨hx, hf⟩ := compare_SB_not_empty h
  obtain ⟨sx, ex, hX, _, _, _, _⟩ := not_empty_bounds hx
  rw [compare_eq hx hf hX rfl] at h
  have hes := (classify_facts _ _ _ _ _ h).1 rfl
  have hlt := cmpBounds_lt_iff.mp (Or.inl hes)
  rw [show vpt (Bound.Unbounded : Bound α) .Start = (⊥ : VP α) from rfl] at hlt
  rcases vpt_shape ex .End with h2 | h2 | ⟨v, e, h2⟩ <;> rw [h2] at hlt <;>
    simp at hlt

theorem compare_left_full_ne_SB (x : ContinuousRange α) :
    ContinuousRange.Full.compare x ≠ some .StrictlyBefore := by
  intro h
  obtain ⟨hf, hx⟩ := compare_SB_not_empty h
  obtain ⟨sx, ex, hX, _, _, _, _⟩ := not_empty_bounds hx
  rw [compare_eq hf hx rfl hX] at h
  have hes := (classify_facts _ _ _ _ _ h).1 rfl
  have hlt := cmpBounds_lt_iff.mp (Or.inl hes)
  rw [show vpt (Bound.Unbounded : Bound α) .End = (vtop : VP α) from rfl] at hlt
  rcases vpt_shape sx .Start with h2 | h2 | ⟨v, e, h2⟩ <;> rw [h2] at hlt <;>
    simp at hlt

theorem chain_SB_no_full_tail :
    ∀ (l : List (ContinuousRange α)) (a : ContinuousRange α),
    List.Chain' (fun x y => x.compare y = some .StrictlyBefore) (a :: l) →
    ∀ z ∈ l, z ≠ .Full := by
  intro l
  induction l with
  | nil =>
    intro a _ z hz
    cases hz
  | cons b t ih =>
    intro a hch z hz
    have h1 : a.compare b = some .StrictlyBefore := (List.chain'_cons.mp hch).1
    have h2 := (List.chain'_cons.mp hch).2
    rcases List.mem_cons.mp hz with rfl | hz
    · intro he
      rw [he] at h1
      exact compare_right_full_ne_SB a h1
    · exact ih b h2 z hz

theorem SB_sortLE {x y : ContinuousRange α}
    (h : x.compare y = some .StrictlyBefore) : sortLE x y = true := by
  unfold sortLE sortOrd
  rw [h]
  rfl

theorem mergeRanges_of_chain :
    ∀ (t : List (ContinuousRange α)) (w : ContinuousRange α),
    List.Chain' (fun x y => x.compare y = some .StrictlyBefore) (w :: t) →
    mergeRanges w t = w :: t := by
  intro t
  induction t with
  | nil =>
    intro w _
    rfl
  | cons r rest ih =>
    intro w hch
    have h1 := (List.chain'_cons.mp hch).1
    have h2 := (List.chain'_cons.mp hch).2
    simp only [mergeRanges, h1]
    rw [ih r h2]

end IdemSupport

section ClaimSupport

variable {α : Type} [LinearOrder α] {b1 b2 : Bound α}

theorem cmpBounds_SS_less (h : vpt b1 .Start < vpt b2 .Start) :
    partialCmpBounds b1 .Start b2 .Start = .Less := by
  rcases cmpBounds_lt_iff.mpr h with h2 | h2
  · exact h2
  · obtain ⟨h3, _, _⟩ := cmpBounds_meets_iff.mp h2
    cases h3

theorem cmpBounds_EE_greater (h : vpt b2 .End < vpt b1 .End) :
    partialCmpBounds b1 .End b2 .End = .Greater := by
  rcases cmpBounds_gt_iff.mpr h with h2 | h2
  · exact h2
  · obtain ⟨h3, _, _⟩ := cmpBounds_ismet_iff.mp h2
    cases h3

theorem cmpBounds_ES_greater (h : vpt b2 .Start < vpt b1 .End) :
    partialCmpBounds b1 .End b2 .Start = .Greater := by
  rcases cmpBounds_gt_iff.mpr h with h2 | h2
  · exact h2
  · obtain ⟨h3, _, _⟩ := cmpBounds_ismet_iff.mp h2
    cases h3

theorem cmpBounds_ES_not_low (h : ¬ vpt b1 .End < vpt b2 .Start) :
    partialCmpBounds b1 .End b2 .Start ≠ .Less ∧
    partialCmpBounds b1 .End b2 .Start ≠ .Meets :=
  ⟨fun h2 => h (cmpBounds_lt_iff.mp (Or.inl h2)),
   fun h2 => h (cmpBounds_lt_iff.mp (Or.inr h2))⟩

theorem cmpBounds_SE_not_high (h : ¬ vpt b2 .End < vpt b1 .Start) :
    partialCmpBounds b1 .Start b2 .End ≠ .Greater ∧
    partialCmpBounds b1 .Start b2 .End ≠ .IsMet :=
  ⟨fun h2 => h (cmpBounds_gt_iff.mp (Or.inl h2)),
   fun h2 => h (cmpBounds_gt_iff.mp (Or.inr h2))⟩

theorem classify_isStarted : ∀ es se : BoundOrdering, es ≠ .Less → es ≠ .Meets →
    se ≠ .Greater → se ≠ .IsMet → classify es se .Equal .Greater = some .IsStarted := by
  decide

theorem classify_isFinished : ∀ es se : BoundOrdering, es ≠ .Less → es ≠ .Meets →
    se ≠ .Greater → se ≠ .IsMet → classify es se .Less .Equal = some .IsFinished := by
  decide

theorem full_contains_classify : ∀ ss ee : BoundOrdering,
    (ss = .Less ∨ ss = .Equal) → (ee = .Greater ∨ ee = .Equal) →
    ∃ rel, classify .Greater .Less ss ee = some rel ∧ rel.contains = true := by
  decide

/-- The full range contains every non-empty range. -/
theorem full_contains_range {x : ContinuousRange α} (hx : x.is_empty = false) :
    ContinuousRange.Full.contains_range x = true := by
  obtain ⟨sx, ex, hX, _, _, _, _⟩ := not_empty_bounds hx
  have hes : partialCmpBounds (Bound.Unbounded : Bound α) .End sx .Start = .Greater := by
    cases sx <;> rfl
  have hse : partialCmpBounds (Bound.Unbounded : Bound α) .Start ex .End = .Less := by
    cases ex <;> rfl
  have hss : partialCmpBounds (Bound.Unbounded : Bound α) .Start sx .Start = .Less ∨
      partialCmpBounds (Bound.Unbounded : Bound α) .Start sx .Start = .Equal := by
    cases sx
    · exact Or.inl rfl
    · exact Or.inl rfl
    · exact Or.inr rfl
  have hee : partialCmpBounds (Bound.Unbounded : Bound α) .End ex .End = .Greater ∨
      partialCmpBounds (Bound.Unbounded : Bound α) .End ex .End = .Equal := by
    cases ex
    · exact Or.inl rfl
    · exact Or.inl rfl
    · exact Or.inr rfl
  obtain ⟨rel, hrel, hcont⟩ := full_contains_classify _ _ hss hee
  unfold ContinuousRange.contains_range
  rw [compare_eq (show (ContinuousRange.Full : ContinuousRange α).is_empty = false
    from rfl) hx rfl hX]
  rw [hes, hse, hrel]
  exact hcont

/-- The shared finite boundary value of two ranges that meet. -/
theorem compare_meets_bound {a b : ContinuousRange α}
    (h : a.compare b = some .Meets) :
    ∃ v, expect_bound a.end_bound = some v ∧ expect_bound b.start_bound = some v := by
  have hne : a.is_empty = false ∧ b.is_empty = false := by
    cases ha : a.is_empty <;> cases hb : b.is_empty
    · exact ⟨rfl, rfl⟩
    all_goals simp [ContinuousRange.compare, ha, hb] at h
  obtain ⟨ha, hb⟩ := hne
  obtain ⟨sa, ea, hA, hAs, hAe, _, _⟩ := not_empty_bounds ha
  obtain ⟨sb, eb, hB, hBs, hBe, _, _⟩ := not_empty_bounds hb
  rw [compare_eq ha hb hA hB] at h
  have hes := (classify_facts _ _ _ _ _ h).2.1 rfl
  obtain ⟨_, _, hadj⟩ := cmpBounds_meets_iff.mp hes
  obtain ⟨v, e, hp, hq⟩ := hadj
  rw [hAe, hBs]
  rcases ea with w | w | _ <;> rcases sb with u | u | _ <;>
    simp only [vpt] at hp hq
  · obtain ⟨rfl, h1⟩ := vp_inj.mp hp
    obtain ⟨rfl, h2⟩ := vp_inj.mp hq
    omega
  · obtain ⟨rfl, h1⟩ := vp_inj.mp hp
    obtain ⟨rfl, h2⟩ := vp_inj.mp hq
    exact ⟨_, rfl, rfl⟩
  · exact absurd hq (by simp)
  · obtain ⟨rfl, h1⟩ := vp_inj.mp hp
    obtain ⟨rfl, h2⟩ := vp_inj.mp hq
    exact ⟨_, rfl, rfl⟩
  · obtain ⟨rfl, h1⟩ := vp_inj.mp hp
    obtain ⟨rfl, h2⟩ := vp_inj.mp hq
    omega
  · exact absurd hq (by simp)
  · exact absurd hp (by simp)
  · exact absurd hp (by simp)
  · exact absurd hp (by simp)

/-- The shared finite boundary value of two ranges related by IsMet. -/
theorem compare_ismet_bound {a b : ContinuousRange α}
    (h : a.compare b = some .IsMet) :
    ∃ v, expect_bound a.start_bound = some v ∧ expect_bound b.end_bound = some v := by
  have hne : a.is_empty = false ∧ b.is_empty = false := by
    cases ha : a.is_empty <;> cases hb : b.is_empty
    · exact ⟨rfl, rfl⟩
    all_goals simp [ContinuousRange.compare, ha, hb] at h
  obtain ⟨ha, hb⟩ := hne
  obtain ⟨sa, ea, hA, hAs, hAe, _, _⟩ := not_empty_bounds ha
  obtain ⟨sb, eb, hB, hBs, hBe, _, _⟩ := not_empty_bounds hb
  rw [compare_eq ha hb hA hB] at h
  have hse := (classify_facts _ _ _ _ _ h).2.2.2.1 rfl
  obtain ⟨_, _, hadj⟩ := cmpBounds_ismet_iff.mp hse
  obtain ⟨v, e, hp, hq⟩ := hadj
  rw [hAs, hBe]
  rcases sa with w | w | _ <;> rcases eb with u | u | _ <;>
    simp only [vpt] at hp hq
  · obtain ⟨rfl, h1⟩ := vp_inj.mp hp
    obtain ⟨rfl, h2⟩ := vp_inj.mp hq
    omega
  · obtain ⟨rfl, h1⟩ := vp_inj.mp hp
    obtain ⟨rfl, h2⟩ := vp_inj.mp hq
    exact ⟨_, rfl, rfl⟩
  · exact absurd hp (by simp)
  · obtain ⟨rfl, h1⟩ := vp_inj.mp hp
    obtain ⟨rfl, h2⟩ := vp_inj.mp hq
    exact ⟨_, rfl, rfl⟩
  · obtain ⟨rfl, h1⟩ := vp_inj.mp hp
    obtain ⟨rfl, h2⟩ := vp_inj.mp hq
    omega
  · exact absurd hp (by simp)
  · exact absurd hq (by simp)
  · exact absurd hq (by simp)
  · exact absurd hp (by simp)

/-- Both parts of an interval union built from the left start and right end
contain the operands, when the operands are suitably ordered. -/
theorem union_piece_contains {a b : ContinuousRange α} {sa ea sb eb : Bound α}
    (ha : a.is_empty = false) (hb : b.is_empty = false)
    (hA : a.range_bounds = some (sa, ea)) (hB : b.range_bounds = some (sb, eb))
    (h1 : vpt sa .Start < vpt sb .Start) (h2 : vpt ea .End < vpt eb .End) :
    (ContinuousRange.from_bounds (sa, eb)).contains_range a = true ∧
    (ContinuousRange.from_bounds (sa, eb)).contains_range b = true := by
  obtain ⟨hsvA, hevA⟩ := range_bounds_startV_endV hA
  obtain ⟨hsvB, hevB⟩ := range_bounds_startV_endV hB
  have hFa : vpt sa .Start ≤ vpt ea .End := by
    rw [← hsvA, ← hevA]
    exact startV_le_endV ha
  have hFb : vpt sb .Start ≤ vpt eb .End := by
    rw [← hsvB, ← hevB]
    exact startV_le_endV hb
  have hle : vpt sa .Start ≤ vpt eb .End := le_trans hFa (le_of_lt h2)
  have hu_ne := from_bounds_not_empty hle
  have hu_b := from_bounds_bounds hle
  constructor
  · unfold ContinuousRange.contains_range
    rw [compare_eq hu_ne ha hu_b hA]
    have hes := cmpBounds_ES_greater (lt_of_le_of_lt hFa h2)
    have hss : partialCmpBounds sa .Start sa .Start = .Equal := cmpBounds_eq_iff.mpr rfl
    have hee := cmpBounds_EE_greater h2
    obtain ⟨hg, him⟩ := cmpBounds_SE_not_high (not_lt.mpr hFa)
    rw [hes, hss, hee, classify_isStarted _ _ (by simp) (by simp) hg him]
    rfl
  · unfold ContinuousRange.contains_range
    rw [compare_eq hu_ne hb hu_b hB]
    have hss := cmpBounds_SS_less h1
    have hee : partialCmpBounds eb .End eb .End = .Equal := cmpBounds_eq_iff.mpr rfl
    obtain ⟨hl, hm⟩ := cmpBounds_ES_not_low (not_lt.mpr hFb)
    obtain ⟨hg, him⟩ := cmpBounds_SE_not_high (not_lt.mpr hle)
    rw [hss, hee, classify_isFinished _ _ hl hm hg him]
    rfl

set_option maxHeartbeats 3200000 in
/-- Difference of two non-empty ranges is absent exactly on the
StrictlyContains relation. -/
theorem difference_none_iff {a b : ContinuousRange α}
    (ha : a.is_empty = false) (hb : b.is_empty = false) :
    (a.difference b = none ↔ a.compare b = some .StrictlyContains) := by
  have hane : a ≠ .Empty := ne_Empty_of_not_empty ha
  have hbne : b ≠ .Empty := ne_Empty_of_not_empty hb
  obtain ⟨rel, hrel⟩ := Option.isSome_iff_exists.mp (compare_isSome ha hb)
  cases a <;>
    first
      | exact absurd rfl hane
      | (cases b <;>
          first
            | exact absurd rfl hbne
            | (simp only [ContinuousRange.difference]
               rw [hrel]
               cases rel <;>
                 simp [ContinuousRange.range_bounds, ContinuousRange.start_bound,
                   ContinuousRange.end_bound]))

theorem intersection_a_full {a b : ContinuousRange α} (hb : b.is_empty = false)
    (haf : a.is_full = true) : a.intersection b = b := by
  have ha : a.is_empty = false := not_empty_of_is_full haf
  simp [ContinuousRange.intersection, ha, hb, haf]

theorem intersection_b_full {a b : ContinuousRange α} (ha : a.is_empty = false)
    (haf : a.is_full = false) (hbf : b.is_full = true) : a.intersection b = a := by
  have hb : b.is_empty = false := not_empty_of_is_full hbf
  simp [ContinuousRange.intersection, ha, hb, haf, hbf]

theorem vpt_start_eq_bot {sb : Bound α} (h : vpt sb .Start = ⊥) :
    sb = .Unbounded := by
  cases sb <;> simp_all [vpt]

theorem vpt_end_eq_vtop {eb : Bound α} (h : vpt eb .End = vtop) :
    eb = .Unbounded := by
  cases eb <;> simp_all [vpt]

theorem range_bounds_full {b : ContinuousRange α}
    (h : b.range_bounds = some (Bound.Unbounded, Bound.Unbounded)) : b = .Full := by
  cases b <;> simp_all [ContinuousRange.range_bounds]

/-- Classification when the left range is Full: only the containing side of
the containment family can result. -/
theorem classify_full_left : ∀ ss ee : BoundOrdering, ∀ rel : RangesRelation,
    (ss = .Less ∨ ss = .Equal) → (ee = .Greater ∨ ee = .Equal) →
    classify .Greater .Less ss ee = some rel →
    rel = .IsStarted ∨ rel = .StrictlyContains ∨ rel = .IsFinished ∨ rel = .Equal := by
  decide

/-- Classification when the right range is Full: only the contained side of
the containment family can result. -/
theorem classify_full_right : ∀ ss ee : BoundOrdering, ∀ rel : RangesRelation,
    (ss = .Greater ∨ ss = .Equal) → (ee = .Less ∨ ee = .Equal) →
    classify .Greater .Less ss ee = some rel →
    rel = .Starts ∨ rel = .IsStrictlyContained ∨ rel = .Finishes ∨ rel = .Equal := by
  decide

/-- A comparison whose left operand is the Full range can only produce a
relation in which the left side contains the right side. -/
theorem compare_full_left {b : ContinuousRange α} {rel : RangesRelation}
    (hb : b.is_empty = false)
    (h : ContinuousRange.Full.compare b = some rel) :
    rel = .IsStarted ∨ rel = .StrictlyContains ∨ rel = .IsFinished ∨ rel = .Equal := by
  obtain ⟨sb, eb, hB, _, _, _, _⟩ := not_empty_bounds hb
  have hfe : (ContinuousRange.Full : ContinuousRange α).is_empty = false := rfl
  have hA : (ContinuousRange.Full : ContinuousRange α).range_bounds
      = some (Bound.Unbounded, Bound.Unbounded) := rfl
  rw [compare_eq hfe hb hA hB] at h
  have hes : partialCmpBounds (Bound.Unbounded : Bound α) .End sb .Start
      = .Greater := by
    cases sb <;> rfl
  have hse : partialCmpBounds (Bound.Unbounded : Bound α) .Start eb .End
      = .Less := by
    cases eb <;> rfl
  have hss : partialCmpBounds (Bound.Unbounded : Bound α) .Start sb .Start = .Less ∨
      partialCmpBounds (Bound.Unbounded : Bound α) .Start sb .Start = .Equal := by
    cases sb <;> first | exact Or.inl rfl | exact Or.inr rfl
  have hee : partialCmpBounds (Bound.Unbounded : Bound α) .End eb .End = .Greater ∨
      partialCmpBounds (Bound.Unbounded : Bound α) .End eb .End = .Equal := by
    cases eb <;> first | exact Or.inl rfl | exact Or.inr rfl
  rw [hes, hse] at h
  exact classify_full_left _ _ rel hss hee h

/-- A comparison whose right operand is the Full range can only produce a
relation in which the right side contains the left side. -/
theorem compare_full_right {a : ContinuousRange α} {rel : RangesRelation}
    (ha : a.is_empty = false)
    (h : a.compare ContinuousRange.Full = some rel) :
    rel = .Starts ∨ rel = .IsStrictlyContained ∨ rel = .Finishes ∨ rel = .Equal := by
  obtain ⟨sa, ea, hA, _, _, _, _⟩ := not_empty_bounds ha
  have hfe : (ContinuousRange.Full : ContinuousRange α).is_empty = false := rfl
  have hB : (ContinuousRange.Full : ContinuousRange α).range_bounds
      = some (Bound.Unbounded, Bound.Unbounded) := rfl
  rw [compare_eq ha hfe hA hB] at h
  have hes : partialCmpBounds ea .End (Bound.Unbounded : Bound α) .Start
      = .Greater := by
    cases ea <;> rfl
  have hse : partialCmpBounds sa .Start (Bound.Unbounded : Bound α) .End
      = .Less := by
    cases sa <;> rfl
  have hss : partialCmpBounds sa .Start (Bound.Unbounded : Bound α) .Start
        = .Greater ∨
      partialCmpBounds sa .Start (Bound.Unbounded : Bound α) .Start = .Equal := by
    cases sa <;> first | exact Or.inl rfl | exact Or.inr rfl
  have hee : partialCmpBounds ea .End (Bound.Unbounded : Bound α) .End = .Less ∨
      partialCmpBounds ea .End (Bound.Unbounded : Bound α) .End = .Equal := by
    cases ea <;> first | exact Or.inl rfl | exact Or.inr rfl
  rw [hes, hse] at h
  exact classify_full_right _ _ rel hss hee h

end ClaimSupport

/-- Claim C2 as stated is false: a range that is empty through inverted bounds
is not matched by the Empty arm of difference, so difference returns None with
a compare result of None rather than StrictlyContains. -/
theorem c2_counterexample :
    (ContinuousRange.Inclusive (3:ℤ) 1).difference (ContinuousRange.Single 0) = none ∧
    ¬ (ContinuousRange.Inclusive (3:ℤ) 1).compare (ContinuousRange.Single 0) =
      some RangesRelation.StrictlyContains := by
  constructor
  · rfl
  · decide

/-- Claim C2, amended: for operands that are empty only through the Empty
constructor, difference returns None exactly when compare is StrictlyContains. -/
theorem c2 {α : Type} [LinearOrder α] (a b : ContinuousRange α)
    (ha : a.is_empty = true → a = .Empty) (hb : b.is_empty = true → b = .Empty) :
    (a.difference b = none ↔ a.compare b = some .StrictlyContains) := by
  have hEe : (ContinuousRange.Empty : ContinuousRange α).is_empty = true := rfl
  by_cases hae : a.is_empty = true
  · rw [ha hae]
    have hd : (ContinuousRange.Empty : ContinuousRange α).difference b = some b := by
      cases b <;> rfl
    rw [hd]
    cases hbe : b.is_empty <;> simp [ContinuousRange.compare, hEe, hbe]
  · have ha' : a.is_empty = false := by
      revert hae
      cases a.is_empty <;> simp
    by_cases hbe : b.is_empty = true
    · rw [hb hbe]
      have hane := ne_Empty_of_not_empty ha'
      have hd : a.difference .Empty = some .Empty := by
        cases a <;> first | exact absurd rfl hane | rfl
      have hc : a.compare .Empty = none := by
        simp [ContinuousRange.compare, ha', hEe]
      rw [hd, hc]
      simp
    · have hb' : b.is_empty = false := by
        revert hbe
        cases b.is_empty <;> simp
      exact difference_none_iff ha' hb'

/-- Witness for the amended claim C2 at a concrete strictly containing pair. -/
theorem c2_witness :
    (ContinuousRange.Inclusive (0:ℤ) 5).difference (ContinuousRange.Inclusive 1 2)
      = none := by
  rw [c2 (ContinuousRange.Inclusive (0:ℤ) 5) (ContinuousRange.Inclusive 1 2)
    (by decide) (by decide)]
  decide

/-- Claim C3 as stated is false: the union with an empty operand returns the
other operand, but contains_range of a non-empty range over an empty range is
false because compare refuses the comparison. -/
theorem c3_counterexample :
    (ContinuousRange.Single (1:ℤ)).union ContinuousRange.Empty
      = some (ContinuousRange.Single 1) ∧
    (ContinuousRange.Single (1:ℤ)).contains_range ContinuousRange.Empty = false := by
  constructor
  · rfl
  · rfl

/-- Claim C3, amended: when the two operands are both empty or both non-empty,
a successful union contains both operands. -/
theorem c3 {α : Type} [LinearOrder α] (a b u : ContinuousRange α)
    (h : a.is_empty = b.is_empty) (hu : a.union b = some u) :
    u.contains_range a = true ∧ u.contains_range b = true := by
  cases hae : a.is_empty
  · have hbe : b.is_empty = false := by rw [← h, hae]
    by_cases haf : a.is_full = true
    · have he : a.union b = some .Full := by
        simp [ContinuousRange.union, haf]
      rw [he] at hu
      obtain rfl := Option.some.inj hu
      exact ⟨full_contains_range hae, full_contains_range hbe⟩
    · by_cases hbf : b.is_full = true
      · have he : a.union b = some .Full := by
          simp [ContinuousRange.union, hbf]
        rw [he] at hu
        obtain rfl := Option.some.inj hu
        exact ⟨full_contains_range hae, full_contains_range hbe⟩
      · have haf' : a.is_full = false := by
          revert haf
          cases a.is_full <;> simp
        have hbf' : b.is_full = false := by
          revert hbf
          cases b.is_full <;> simp
        obtain ⟨rel, hrel⟩ := Option.isSome_iff_exists.mp (compare_isSome hae hbe)
        have hu2 : a.union_knowing_cmp b rel = some u := by
          simp only [ContinuousRange.union, haf', hbf', hae, hbe, hrel,
            Bool.or_self, Bool.false_eq_true, if_false] at hu
          exact hu
        obtain ⟨sa, ea, hA, hAs, hAe, hAsv, hAev⟩ := not_empty_bounds hae
        obtain ⟨sb, eb, hB, hBs, hBe, hBsv, hBev⟩ := not_empty_bounds hbe
        have hFa : vpt sa .Start ≤ vpt ea .End := by
          rw [← hAsv, ← hAev]
          exact startV_le_endV hae
        have hFb : vpt sb .Start ≤ vpt eb .End := by
          rw [← hBsv, ← hBev]
          exact startV_le_endV hbe
        have hclass := hrel
        rw [compare_eq hae hbe hA hB] at hclass
        have facts := classify_facts _ _ _ _ rel hclass
        cases rel with
        | StrictlyBefore => simp [ContinuousRange.union_knowing_cmp] at hu2
        | StrictlyAfter => simp [ContinuousRange.union_knowing_cmp] at hu2
        | Meets =>
          have hadj := (cmpBounds_meets_iff.mp (facts.2.1 rfl)).2.2
          have hlt := vadj_lt hadj
          have he : a.union_knowing_cmp b .Meets
              = some (ContinuousRange.from_bounds (sa, eb)) := by
            simp [ContinuousRange.union_knowing_cmp, hAs, hBe]
          rw [he] at hu2
          obtain rfl := Option.some.inj hu2
          exact union_piece_contains hae hbe hA hB
            (lt_of_le_of_lt hFa hlt) (lt_of_lt_of_le hlt hFb)
        | IsMet =>
          have hadj := (cmpBounds_ismet_iff.mp (facts.2.2.2.1 rfl)).2.2
          have hlt := vadj_lt hadj
          have he : a.union_knowing_cmp b .IsMet
              = some (ContinuousRange.from_bounds (sb, ea)) := by
            simp [ContinuousRange.union_knowing_cmp, hAe, hBs]
          rw [he] at hu2
          obtain rfl := Option.some.inj hu2
          obtain ⟨x, y⟩ := union_piece_contains hbe hae hB hA
            (lt_of_le_of_lt hFb hlt) (lt_of_lt_of_le hlt hFa)
          exact ⟨y, x⟩
        | Overlaps =>
          obtain ⟨hss, hee⟩ := facts.2.2.2.2.1 rfl
          have he : a.union_knowing_cmp b .Overlaps
              = some (ContinuousRange.from_bounds (sa, eb)) := by
            simp [ContinuousRange.union_knowing_cmp, hAs, hBe]
          rw [he] at hu2
          obtain rfl := Option.some.inj hu2
          exact union_piece_contains hae hbe hA hB
            (cmpBounds_lt_iff.mp (Or.inl hss)) (cmpBounds_lt_iff.mp (Or.inl hee))
        | IsOverlapped =>
          obtain ⟨hss, hee⟩ := facts.2.2.2.2.2.1 rfl
          have he : a.union_knowing_cmp b .IsOverlapped
              = some (ContinuousRange.from_bounds (sb, ea)) := by
            simp [ContinuousRange.union_knowing_cmp, hAe, hBs]
          rw [he] at hu2
          obtain rfl := Option.some.inj hu2
          obtain ⟨x, y⟩ := union_piece_contains hbe hae hB hA
            (cmpBounds_gt_iff.mp (Or.inl hss)) (cmpBounds_gt_iff.mp (Or.inl hee))
          exact ⟨y, x⟩
        | Starts =>
          rw [show a.union_knowing_cmp b .Starts = some _ from rfl] at hu2
          obtain rfl := Option.some.inj hu2
          constructor
          · simp [ContinuousRange.contains_range, compare_flip a b, hrel,
              RangesRelation.inverse, RangesRelation.contains]
          · simp [ContinuousRange.contains_range, compare_self_nonempty hbe,
              RangesRelation.contains]
        | IsStarted =>
          rw [show a.union_knowing_cmp b .IsStarted = some _ from rfl] at hu2
          obtain rfl := Option.some.inj hu2
          constructor
          · simp [ContinuousRange.contains_range, compare_self_nonempty hae,
              RangesRelation.contains]
          · simp [ContinuousRange.contains_range, hrel, RangesRelation.contains]
        | StrictlyContains =>
          rw [show a.union_knowing_cmp b .StrictlyContains = some _ from rfl] at hu2
          obtain rfl := Option.some.inj hu2
          constructor
          · simp [ContinuousRange.contains_range, compare_self_nonempty hae,
              RangesRelation.contains]
          · simp [ContinuousRange.contains_range, hrel, RangesRelation.contains]
        | IsStrictlyContained =>
          rw [show a.union_knowing_cmp b .IsStrictlyContained = some _ from rfl] at hu2
          obtain rfl := Option.some.inj hu2
          constructor
          · simp [ContinuousRange.contains_range, compare_flip a b, hrel,
              RangesRelation.inverse, RangesRelation.contains]
          · simp [ContinuousRange.contains_range, compare_self_nonempty hbe,
              RangesRelation.contains]
        | Finishes =>
          rw [show a.union_knowing_cmp b .Finishes = some _ from rfl] at hu2
          obtain rfl := Option.some.inj hu2
          constructor
          · simp [ContinuousRange.contains_range, compare_flip a b, hrel,
              RangesRelation.inverse, RangesRelation.contains]
          · simp [ContinuousRange.contains_range, compare_self_nonempty hbe,
              RangesRelation.contains]
        | IsFinished =>
          rw [show a.union_knowing_cmp b .IsFinished = some _ from rfl] at hu2
          obtain rfl := Option.some.inj hu2
          constructor
          · simp [ContinuousRange.contains_range, compare_self_nonempty hae,
              RangesRelation.contains]
          · simp [ContinuousRange.contains_range, hrel, RangesRelation.contains]
        | Equal =>
          rw [show a.union_knowing_cmp b .Equal = some _ from rfl] at hu2
          obtain rfl := Option.some.inj hu2
          constructor
          · simp [ContinuousRange.contains_range, compare_self_nonempty hae,
              RangesRelation.contains]
          · simp [ContinuousRange.contains_range, hrel, RangesRelation.contains]
  · have hbe : b.is_empty = true := by rw [← h, hae]
    have haf : a.is_full = false := by
      cases hf : a.is_full
      · rfl
      · have := not_empty_of_is_full hf
        rw [hae] at this
        cases this
    have hbf : b.is_full = false := by
      cases hf : b.is_full
      · rfl
      · have := not_empty_of_is_full hf
        rw [hbe] at this
        cases this
    have he : a.union b = some b := by
      simp [ContinuousRange.union, haf, hbf, hae]
    rw [he] at hu
    obtain rfl := Option.some.inj hu
    constructor <;>
      simp [ContinuousRange.contains_range, ContinuousRange.compare, hae, hbe,
        RangesRelation.contains]

/-- Witness for the amended claim C3 at a concrete overlapping pair. -/
theorem c3_witness :
    (ContinuousRange.Inclusive (0:ℤ) 5).contains_range (ContinuousRange.Inclusive 0 3)
      = true ∧
    (ContinuousRange.Inclusive (0:ℤ) 5).contains_range (ContinuousRange.Inclusive 1 5)
      = true :=
  c3 (ContinuousRange.Inclusive (0:ℤ) 3) (ContinuousRange.Inclusive 1 5)
    (ContinuousRange.Inclusive 0 5) (by decide) (by decide)

/-- Claim C4: compare of the swapped pair is the algebraic inverse of compare
of the pair, with None mapped to None. -/
theorem c4 {α : Type} [LinearOrder α] (a b : ContinuousRange α) :
    b.compare a = (a.compare b).map RangesRelation.inverse :=
  compare_flip a b

/-- Claim C5: compare is reflexively Equal on non-empty ranges, Equal on two
empty ranges, and None between an empty and a non-empty range in either
order. -/
theorem c5 {α : Type} [LinearOrder α] (a b : ContinuousRange α) :
    (a.is_empty = false → a.compare a = some .Equal) ∧
    (a.is_empty = true → b.is_empty = true → a.compare b = some .Equal) ∧
    (a.is_empty = true → b.is_empty = false →
      a.compare b = none ∧ b.compare a = none) := by
  refine ⟨fun ha => compare_self_nonempty ha, fun ha hb => ?_, fun ha hb => ⟨?_, ?_⟩⟩
  · simp [ContinuousRange.compare, ha, hb]
  · simp [ContinuousRange.compare, ha, hb]
  · simp [ContinuousRange.compare, ha, hb]

/-- Witness for claim C5 at concrete inputs. -/
theorem c5_witness :
    (ContinuousRange.Single (3:ℤ)).compare (ContinuousRange.Single 3) = some .Equal ∧
    (ContinuousRange.Empty : ContinuousRange ℤ).compare ContinuousRange.Empty
      = some .Equal ∧
    (ContinuousRange.Empty : ContinuousRange ℤ).compare (ContinuousRange.Single 3)
      = none ∧
    (ContinuousRange.Single (3:ℤ)).compare ContinuousRange.Empty = none :=
  ⟨(c5 (ContinuousRange.Single (3:ℤ)) ContinuousRange.Empty).1 (by decide),
   (c5 (ContinuousRange.Empty : ContinuousRange ℤ) ContinuousRange.Empty).2.1
     (by decide) (by decide),
   ((c5 (ContinuousRange.Empty : ContinuousRange ℤ) (ContinuousRange.Single 3)).2.2
     (by decide) (by decide)).1,
   ((c5 (ContinuousRange.Empty : ContinuousRange ℤ) (ContinuousRange.Single 3)).2.2
     (by decide) (by decide)).2⟩

/-- Claim C6: an Included and an Excluded bound at equal values compare by
side as Less, Greater, IsMet and Meets, and consequently the end exclusive
range up to 5 meets the range from 5. -/
theorem c6 {α : Type} [LinearOrder α] (v : α) :
    partialCmpBounds (Bound.Included v) .Start (Bound.Excluded v) .Start = .Less ∧
    partialCmpBounds (Bound.Included v) .End (Bound.Excluded v) .End = .Greater ∧
    partialCmpBounds (Bound.Included v) .Start (Bound.Excluded v) .End = .IsMet ∧
    partialCmpBounds (Bound.Included v) .End (Bound.Excluded v) .Start = .Meets ∧
    (ContinuousRange.EndExclusive (0:ℤ) 5).compare (ContinuousRange.From 5)
      = some .Meets := by
  have hc : compare v v = Ordering.eq := compare_eq_iff_eq.mpr rfl
  refine ⟨?_, ?_, ?_, ?_, by decide⟩ <;> simp [partialCmpBounds, hc]

/-- Claim C9: when compare yields Meets the end bound of the left range is
present and finite, and when it yields IsMet the start bound of the left range
is present and finite, so expect_bound cannot fail in those intersection
branches. -/
theorem c9 {α : Type} [LinearOrder α] (a b : ContinuousRange α) :
    (a.compare b = some .Meets → (expect_bound a.end_bound).isSome = true) ∧
    (a.compare b = some .IsMet → (expect_bound a.start_bound).isSome = true) := by
  constructor
  · intro h
    obtain ⟨v, hv, _⟩ := compare_meets_bound h
    rw [hv]
    rfl
  · intro h
    obtain ⟨v, hv, _⟩ := compare_ismet_bound h
    rw [hv]
    rfl

/-- Witness for claim C9 at a concrete meeting pair. -/
theorem c9_witness :
    (expect_bound (ContinuousRange.EndExclusive (0:ℤ) 5).end_bound).isSome = true ∧
    (expect_bound (ContinuousRange.From (5:ℤ)).start_bound).isSome = true :=
  ⟨(c9 (ContinuousRange.EndExclusive (0:ℤ) 5) (ContinuousRange.From 5)).1 (by decide),
   (c9 (ContinuousRange.From (5:ℤ)) (ContinuousRange.EndExclusive 0 5)).2 (by decide)⟩

/-- Claim C10: intersects is false when both operands are empty, although the
relation of two empty ranges is Equal and the Equal relation intersects; and
intersects is false when exactly one operand is empty. -/
theorem c10 {α : Type} [LinearOrder α] (a b : ContinuousRange α) :
    (a.is_empty = true → b.is_empty = true →
      a.intersects b = false ∧ a.compare b = some .Equal ∧
      RangesRelation.Equal.intersects = true) ∧
    (a.is_empty = true → b.is_empty = false →
      a.intersects b = false ∧ b.intersects a = false) := by
  constructor
  · intro ha hb
    refine ⟨?_, ?_, rfl⟩
    · simp [ContinuousRange.intersects, ha, hb]
    · simp [ContinuousRange.compare, ha, hb]
  · intro ha hb
    constructor
    · simp [ContinuousRange.intersects, ha, hb, ContinuousRange.compare]
    · simp [ContinuousRange.intersects, ha, hb, ContinuousRange.compare]

/-- Witness for claim C10 at concrete inputs. -/
theorem c10_witness :
    (ContinuousRange.Empty : ContinuousRange ℤ).intersects ContinuousRange.Empty
      = false ∧
    (ContinuousRange.Empty : ContinuousRange ℤ).intersects (ContinuousRange.Single 1)
      = false ∧
    (ContinuousRange.Single (1:ℤ)).intersects ContinuousRange.Empty = false :=
  ⟨((c10 (ContinuousRange.Empty : ContinuousRange ℤ) ContinuousRange.Empty).1
      (by decide) (by decide)).1,
   ((c10 (ContinuousRange.Empty : ContinuousRange ℤ) (ContinuousRange.Single 1)).2
      (by decide) (by decide)).1,
   ((c10 (ContinuousRange.Empty : ContinuousRange ℤ) (ContinuousRange.Single 1)).2
      (by decide) (by decide)).2⟩

/-- Claim C7: intersection is total: an empty operand yields Empty, a Full
operand yields the other operand, and when compare succeeds the result per
relation is Empty for StrictlyBefore and StrictlyAfter, the Single of the
shared boundary point for Meets and IsMet (where expect_bound succeeds, so the
panic is unreachable), the inner bound pair for Overlaps and IsOverlapped, and
the smaller operand for the containment family. -/
theorem c7 {α : Type} [LinearOrder α] (a b : ContinuousRange α) :
    (a.is_empty = true ∨ b.is_empty = true → a.intersection b = .Empty) ∧
    (b.is_empty = false → a.is_full = true → a.intersection b = b) ∧
    (a.is_empty = false → a.is_full = false → b.is_full = true →
      a.intersection b = a) ∧
    (a.compare b = some .StrictlyBefore → a.intersection b = .Empty) ∧
    (a.compare b = some .StrictlyAfter → a.intersection b = .Empty) ∧
    (a.compare b = some .Meets → ∃ v, expect_bound a.end_bound = some v ∧
      expect_bound b.start_bound = some v ∧
      a.intersection b = ContinuousRange.single v) ∧
    (a.compare b = some .IsMet → ∃ v, expect_bound a.start_bound = some v ∧
      expect_bound b.end_bound = some v ∧
      a.intersection b = ContinuousRange.single v) ∧
    (a.compare b = some .Overlaps → ∃ sa ea sb eb,
      a.range_bounds = some (sa, ea) ∧ b.range_bounds = some (sb, eb) ∧
      a.intersection b = ContinuousRange.from_bounds (sb, ea)) ∧
    (a.compare b = some .IsOverlapped → ∃ sa ea sb eb,
      a.range_bounds = some (sa, ea) ∧ b.range_bounds = some (sb, eb) ∧
      a.intersection b = ContinuousRange.from_bounds (sa, eb)) ∧
    (a.compare b = some .Starts → a.intersection b = a) ∧
    (a.compare b = some .IsStarted → a.intersection b = b) ∧
    (a.compare b = some .StrictlyContains → a.intersection b = b) ∧
    (a.compare b = some .IsStrictlyContained → a.intersection b = a) ∧
    (a.compare b = some .Finishes → a.intersection b = a) ∧
    (a.compare b = some .IsFinished → a.intersection b = b) ∧
    (a.compare b = some .Equal → a.is_empty = false → a.intersection b = a) := by
  refine ⟨?_, ?_, ?_, ?_, ?_, ?_, ?_, ?_, ?_, ?_, ?_, ?_, ?_, ?_, ?_, ?_⟩
  · rintro (h | h) <;> simp [ContinuousRange.intersection, h]
  · intro hb hf
    exact intersection_a_full hb hf
  · intro ha haf hbf
    exact intersection_b_full ha haf hbf
  · intro hrel
    have hne : a.is_empty = false ∧ b.is_empty = false := by
      cases hae : a.is_empty <;> cases hbe : b.is_empty
      · exact ⟨rfl, rfl⟩
      all_goals simp [ContinuousRange.compare, hae, hbe] at hrel
    obtain ⟨ha, hb⟩ := hne
    have haf : a.is_full = false := by
      cases hf : a.is_full
      · rfl
      · rw [is_full_iff.mp hf] at hrel
        rcases compare_full_left hb hrel with h | h | h | h <;> cases h
    have hbf : b.is_full = false := by
      cases hf : b.is_full
      · rfl
      · rw [is_full_iff.mp hf] at hrel
        rcases compare_full_right ha hrel with h | h | h | h <;> cases h
    simp [ContinuousRange.intersection, ha, hb, haf, hbf, hrel]
  · intro hrel
    have hne : a.is_empty = false ∧ b.is_empty = false := by
      cases hae : a.is_empty <;> cases hbe : b.is_empty
      · exact ⟨rfl, rfl⟩
      all_goals simp [ContinuousRange.compare, hae, hbe] at hrel
    obtain ⟨ha, hb⟩ := hne
    have haf : a.is_full = false := by
      cases hf : a.is_full
      · rfl
      · rw [is_full_iff.mp hf] at hrel
        rcases compare_full_left hb hrel with h | h | h | h <;> cases h
    have hbf : b.is_full = false := by
      cases hf : b.is_full
      · rfl
      · rw [is_full_iff.mp hf] at hrel
        rcases compare_full_right ha hrel with h | h | h | h <;> cases h
    simp [ContinuousRange.intersection, ha, hb, haf, hbf, hrel]
  · intro hrel
    have hne : a.is_empty = false ∧ b.is_empty = false := by
      cases hae : a.is_empty <;> cases hbe : b.is_empty
      · exact ⟨rfl, rfl⟩
      all_goals simp [ContinuousRange.compare, hae, hbe] at hrel
    obtain ⟨ha, hb⟩ := hne
    have haf : a.is_full = false := by
      cases hf : a.is_full
      · rfl
      · rw [is_full_iff.mp hf] at hrel
        rcases compare_full_left hb hrel with h | h | h | h <;> cases h
    have hbf : b.is_full = false := by
      cases hf : b.is_full
      · rfl
      · rw [is_full_iff.mp hf] at hrel
        rcases compare_full_right ha hrel with h | h | h | h <;> cases h
    obtain ⟨v, hv1, hv2⟩ := compare_meets_bound hrel
    exact ⟨v, hv1, hv2,
      by simp [ContinuousRange.intersection, ha, hb, haf, hbf, hrel, hv1]⟩
  · intro hrel
    have hne : a.is_empty = false ∧ b.is_empty = false := by
      cases hae : a.is_empty <;> cases hbe : b.is_empty
      · exact ⟨rfl, rfl⟩
      all_goals simp [ContinuousRange.compare, hae, hbe] at hrel
    obtain ⟨ha, hb⟩ := hne
    have haf : a.is_full = false := by
      cases hf : a.is_full
      · rfl
      · rw [is_full_iff.mp hf] at hrel
        rcases compare_full_left hb hrel with h | h | h | h <;> cases h
    have hbf : b.is_full = false := by
      cases hf : b.is_full
      · rfl
      · rw [is_full_iff.mp hf] at hrel
        rcases compare_full_right ha hrel with h | h | h | h <;> cases h
    obtain ⟨v, hv1, hv2⟩ := compare_ismet_bound hrel
    exact ⟨v, hv1, hv2,
      by simp [ContinuousRange.intersection, ha, hb, haf, hbf, hrel, hv1]⟩
  · intro hrel
    have hne : a.is_empty = false ∧ b.is_empty = false := by
      cases hae : a.is_empty <;> cases hbe : b.is_empty
      · exact ⟨rfl, rfl⟩
      all_goals simp [ContinuousRange.compare, hae, hbe] at hrel
    obtain ⟨ha, hb⟩ := hne
    have haf : a.is_full = false := by
      cases hf : a.is_full
      · rfl
      · rw [is_full_iff.mp hf] at hrel
        rcases compare_full_left hb hrel with h | h | h | h <;> cases h
    have hbf : b.is_full = false := by
      cases hf : b.is_full
      · rfl
      · rw [is_full_iff.mp hf] at hrel
        rcases compare_full_right ha hrel with h | h | h | h <;> cases h
    obtain ⟨sa, ea, hA, _, _, _, _⟩ := not_empty_bounds ha
    obtain ⟨sb, eb, hB, _, _, _, _⟩ := not_empty_bounds hb
    exact ⟨sa, ea, sb, eb, hA, hB,
      by simp [ContinuousRange.intersection, ha, hb, haf, hbf, hrel, hA, hB]⟩
  · intro hrel
    have hne : a.is_empty = false ∧ b.is_empty = false := by
      cases hae : a.is_empty <;> cases hbe : b.is_empty
      · exact ⟨rfl, rfl⟩
      all_goals simp [ContinuousRange.compare, hae, hbe] at hrel
    obtain ⟨ha, hb⟩ := hne
    have haf : a.is_full = false := by
      cases hf : a.is_full
      · rfl
      · rw [is_full_iff.mp hf] at hrel
        rcases compare_full_left hb hrel with h | h | h | h <;> cases h
    have hbf : b.is_full = false := by
      cases hf : b.is_full
      · rfl
      · rw [is_full_iff.mp hf] at hrel
        rcases compare_full_right ha hrel with h | h | h | h <;> cases h
    obtain ⟨sa, ea, hA, _, _, _, _⟩ := not_empty_bounds ha
    obtain ⟨sb, eb, hB, _, _, _, _⟩ := not_empty_bounds hb
    exact ⟨sa, ea, sb, eb, hA, hB,
      by simp [ContinuousRange.intersection, ha, hb, haf, hbf, hrel, hA, hB]⟩
  · intro hrel
    have hne : a.is_empty = false ∧ b.is_empty = false := by
      cases hae : a.is_empty <;> cases hbe : b.is_empty
      · exact ⟨rfl, rfl⟩
      all_goals simp [ContinuousRange.compare, hae, hbe] at hrel
    obtain ⟨ha, hb⟩ := hne
    have haf : a.is_full = false := by
      cases hf : a.is_full
      · rfl
      · rw [is_full_iff.mp hf] at hrel
        rcases compare_full_left hb hrel with h | h | h | h <;> cases h
    by_cases hbf : b.is_full = true
    · exact intersection_b_full ha haf hbf
    · have hbf' : b.is_full = false := by
        revert hbf
        cases b.is_full <;> simp
      simp [ContinuousRange.intersection, ha, hb, haf, hbf', hrel]
  · intro hrel
    have hne : a.is_empty = false ∧ b.is_empty = false := by
      cases hae : a.is_empty <;> cases hbe : b.is_empty
      · exact ⟨rfl, rfl⟩
      all_goals simp [ContinuousRange.compare, hae, hbe] at hrel
    obtain ⟨ha, hb⟩ := hne
    have hbf : b.is_full = false := by
      cases hf : b.is_full
      · rfl
      · rw [is_full_iff.mp hf] at hrel
        rcases compare_full_right ha hrel with h | h | h | h <;> cases h
    by_cases haf : a.is_full = true
    · exact intersection_a_full hb haf
    · have haf' : a.is_full = false := by
        revert haf
        cases a.is_full <;> simp
      simp [ContinuousRange.intersection, ha, hb, haf', hbf, hrel]
  · intro hrel
    have hne : a.is_empty = false ∧ b.is_empty = false := by
      cases hae : a.is_empty <;> cases hbe : b.is_empty
      · exact ⟨rfl, rfl⟩
      all_goals simp [ContinuousRange.compare, hae, hbe] at hrel
    obtain ⟨ha, hb⟩ := hne
    have hbf : b.is_full = false := by
      cases hf : b.is_full
      · rfl
      · rw [is_full_iff.mp hf] at hrel
        rcases compare_full_right ha hrel with h | h | h | h <;> cases h
    by_cases haf : a.is_full = true
    · exact intersection_a_full hb haf
    · have haf' : a.is_full = false := by
        revert haf
        cases a.is_full <;> simp
      simp [ContinuousRange.intersection, ha, hb, haf', hbf, hrel]
  · intro hrel
    have hne : a.is_empty = false ∧ b.is_empty = false := by
      cases hae : a.is_empty <;> cases hbe : b.is_empty
      · exact ⟨rfl, rfl⟩
      all_goals simp [ContinuousRange.compare, hae, hbe] at hrel
    obtain ⟨ha, hb⟩ := hne
    have haf : a.is_full = false := by
      cases hf : a.is_full
      · rfl
      · rw [is_full_iff.mp hf] at hrel
        rcases compare_full_left hb hrel with h | h | h | h <;> cases h
    by_cases hbf : b.is_full = true
    · exact intersection_b_full ha haf hbf
    · have hbf' : b.is_full = false := by
        revert hbf
        cases b.is_full <;> simp
      simp [ContinuousRange.intersection, ha, hb, haf, hbf', hrel]
  · intro hrel
    have hne : a.is_empty = false ∧ b.is_empty = false := by
      cases hae : a.is_empty <;> cases hbe : b.is_empty
      · exact ⟨rfl, rfl⟩
      all_goals simp [ContinuousRange.compare, hae, hbe] at hrel
    obtain ⟨ha, hb⟩ := hne
    have haf : a.is_full = false := by
      cases hf : a.is_full
      · rfl
      · rw [is_full_iff.mp hf] at hrel
        rcases compare_full_left hb hrel with h | h | h | h <;> cases h
    by_cases hbf : b.is_full = true
    · exact intersection_b_full ha haf hbf
    · have hbf' : b.is_full = false := by
        revert hbf
        cases b.is_full <;> simp
      simp [ContinuousRange.intersection, ha, hb, haf, hbf', hrel]
  · intro hrel
    have hne : a.is_empty = false ∧ b.is_empty = false := by
      cases hae : a.is_empty <;> cases hbe : b.is_empty
      · exact ⟨rfl, rfl⟩
      all_goals simp [ContinuousRange.compare, hae, hbe] at hrel
    obtain ⟨ha, hb⟩ := hne
    have hbf : b.is_full = false := by
      cases hf : b.is_full
      · rfl
      · rw [is_full_iff.mp hf] at hrel
        rcases compare_full_right ha hrel with h | h | h | h <;> cases h
    by_cases haf : a.is_full = true
    · exact intersection_a_full hb haf
    · have haf' : a.is_full = false := by
        revert haf
        cases a.is_full <;> simp
      simp [ContinuousRange.intersection, ha, hb, haf', hbf, hrel]
  · intro hrel ha
    have hb : b.is_empty = false := by
      cases hbe : b.is_empty
      · rfl
      · simp [ContinuousRange.compare, ha, hbe] at hrel
    by_cases hf : a.is_full = true
    · obtain ⟨sb, eb, hBb, _, _, _, _⟩ := not_empty_bounds hb
      have ha2 : a = ContinuousRange.Full := is_full_iff.mp hf
      subst ha2
      have hfe : (ContinuousRange.Full : ContinuousRange α).is_empty = false := rfl
      have hA : (ContinuousRange.Full : ContinuousRange α).range_bounds
          = some (Bound.Unbounded, Bound.Unbounded) := rfl
      rw [compare_eq hfe hb hA hBb] at hrel
      obtain ⟨hss, hee⟩ :=
        (classify_facts _ _ _ _ _ hrel).2.2.2.2.2.2.2.2.2.2.2.2 rfl
      have hsb : sb = Bound.Unbounded := vpt_start_eq_bot (cmpBounds_eq_iff.mp hss).symm
      have heb : eb = Bound.Unbounded := vpt_end_eq_vtop (cmpBounds_eq_iff.mp hee).symm
      subst hsb
      subst heb
      have hbF : b = ContinuousRange.Full := range_bounds_full hBb
      subst hbF
      exact intersection_a_full hb hf
    · have haf : a.is_full = false := by
        revert hf
        cases a.is_full <;> simp
      by_cases hg : b.is_full = true
      · exfalso
        obtain ⟨sa, ea, hAa, _, _, _, _⟩ := not_empty_bounds ha
        have hb2 : b = ContinuousRange.Full := is_full_iff.mp hg
        subst hb2
        have hfe : (ContinuousRange.Full : ContinuousRange α).is_empty = false := rfl
        have hB : (ContinuousRange.Full : ContinuousRange α).range_bounds
            = some (Bound.Unbounded, Bound.Unbounded) := rfl
        rw [compare_eq ha hfe hAa hB] at hrel
        obtain ⟨hss, hee⟩ :=
          (classify_facts _ _ _ _ _ hrel).2.2.2.2.2.2.2.2.2.2.2.2 rfl
        have hsa : sa = Bound.Unbounded := vpt_start_eq_bot (cmpBounds_eq_iff.mp hss)
        have hea : ea = Bound.Unbounded := vpt_end_eq_vtop (cmpBounds_eq_iff.mp hee)
        subst hsa
        subst hea
        have : a.is_full = true := is_full_iff.mpr (range_bounds_full hAa)
        rw [haf] at this
        cases this
      · have hbf : b.is_full = false := by
          revert hg
          cases b.is_full <;> simp
        simp [ContinuousRange.intersection, ha, hb, haf, hbf, hrel]

/-- Witness for claim C7 at concrete disjoint, Full and containing pairs. -/
theorem c7_witness :
    (ContinuousRange.Inclusive (0:ℤ) 1).intersection (ContinuousRange.Inclusive 3 4)
      = ContinuousRange.Empty ∧
    (ContinuousRange.Full : ContinuousRange ℤ).intersection (ContinuousRange.Single 2)
      = ContinuousRange.Single 2 ∧
    (ContinuousRange.Inclusive (0:ℤ) 9).intersection (ContinuousRange.Inclusive 2 5)
      = ContinuousRange.Inclusive 2 5 :=
  ⟨(c7 (ContinuousRange.Inclusive (0:ℤ) 1) (ContinuousRange.Inclusive 3 4)).2.2.2.1
      (by decide),
   (c7 (ContinuousRange.Full : ContinuousRange ℤ) (ContinuousRange.Single 2)).2.1
      (by decide) (by decide),
   (c7 (ContinuousRange.Inclusive (0:ℤ) 9)
      (ContinuousRange.Inclusive 2 5)).2.2.2.2.2.2.2.2.2.2.2.1 (by decide)⟩

/-- Claim C1: for every input sequence of intervals over a totally ordered
element type, after simplify_ranges returns, the sequence contains no empty
element, no two distinct elements intersect, no two elements meet, and every
pair of elements in order (in particular every pair of consecutive elements)
satisfies compare earlier later = some StrictlyBefore. -/
theorem c1 {α : Type} [LinearOrder α] (rs : List (ContinuousRange α)) :
    (∀ x ∈ simplify_ranges rs, x.is_empty = false) ∧
    List.Pairwise (fun x y =>
      x.intersects y = false ∧ y.intersects x = false ∧
      x.compare y = some .StrictlyBefore ∧ x.compare y ≠ some .Meets ∧
      y.compare x ≠ some .Meets) (simplify_ranges rs) ∧
    List.Chain' (fun x y => x.compare y = some .StrictlyBefore) (simplify_ranges rs) := by
  obtain ⟨h1, h2, _⟩ := simplify_ranges_spec rs
  refine ⟨h1, ?_, h2⟩
  have hp := chain_SB_pairwise h2
  refine List.Pairwise.imp_of_mem ?_ hp
  intro x y hx hy hSB
  have hflip : y.compare x = some .StrictlyAfter := by
    rw [compare_flip, hSB]
    rfl
  refine ⟨?_, ?_, hSB, ?_, ?_⟩
  · simp [ContinuousRange.intersects, (compare_SB_not_empty hSB).1, hSB,
      RangesRelation.intersects]
  · simp [ContinuousRange.intersects, (compare_SB_not_empty hSB).2, hflip,
      RangesRelation.intersects]
  · rw [hSB]
    simp
  · rw [hflip]
    simp

/-- Claim C8: simplify_ranges is idempotent. -/
theorem c8 {α : Type} [LinearOrder α] (rs : List (ContinuousRange α)) :
    simplify_ranges (simplify_ranges rs) = simplify_ranges rs := by
  obtain ⟨hne, hchain, hfix⟩ := simplify_ranges_spec rs
  cases hout : simplify_ranges rs with
  | nil => simp [simplify_ranges]
  | cons a t =>
    rw [hout] at hne hchain hfix
    by_cases hA : a = .Full ∧ t = []
    · obtain ⟨rfl, rfl⟩ := hA
      rfl
    · have hnofull : ∀ z ∈ a :: t, z ≠ .Full := by
        intro z hz
        rcases List.mem_cons.mp hz with rfl | hz2
        · cases t with
          | nil =>
            intro he
            exact hA ⟨he, rfl⟩
          | cons b t2 =>
            intro he
            rw [he] at hchain
            exact compare_left_full_ne_SB b (List.chain'_cons.mp hchain).1
        · exact chain_SB_no_full_tail t a hchain z hz2
      have hmap : (a :: t).map ContinuousRange.simplify = a :: t := by
        have hh : ∀ x ∈ a :: t, ContinuousRange.simplify x = id x := fun x hx => hfix x hx
        rw [List.map_congr_left hh, List.map_id]
      have hany : ((a :: t).map ContinuousRange.simplify).any ContinuousRange.is_full
          = false := by
        rw [hmap, List.any_eq_false]
        intro x hx hfull2
        exact hnofull x hx (is_full_iff.mp hfull2)
      have hrem : removeEmpties ((a :: t).map ContinuousRange.simplify) = a :: t := by
        rw [hmap]
        exact removeEmpties_of_no_empty _ (fun x hx => ne_Empty_of_not_empty (hne x hx))
      have hsorted : (a :: t).mergeSort sortLE = a :: t := by
        apply List.mergeSort_of_sorted
        exact (chain_SB_pairwise hchain).imp (fun h => SB_sortLE h)
      unfold simplify_ranges
      rw [if_neg (by simp)]
      rw [hany, if_neg Bool.false_ne_true]
      rw [hrem, hsorted]
      exact mergeRanges_of_chain t a hchain

end RangeRanger
